import Mathlib

/-!
Verification development for the `ic-stable-memory` core: the stable-memory
allocator (`src/mem/allocator.rs`) and the certified hash map node
(`src/collections/certified_hash_map/node.rs`, `src/utils/certification.rs`).

Machine integers (`u64`/`usize`) are modelled as `Nat` with explicit
reduction modulo `2 ^ 64` (release-mode wrapping semantics) at the points
where the source performs machine arithmetic.  Stable memory is a byte
function `Nat → Nat`.  Code that lives outside the provided sources
(the `SSlice`/`FreeBlock` helpers, the host memory primitives, the candid
encoding, SHA-256 and the key hash) is modelled from the specification and
marked as such in its doc comment.
-/

set_option autoImplicit false

namespace Spec2Proof

/-! ## Bytes and 64-bit words -/

/-- Wrap to a `u64` (release-mode wrapping semantics). -/
def m64 (x : Nat) : Nat := x % 18446744073709551616

/-- Wrap to a `u32`. -/
def m32 (x : Nat) : Nat := x % 4294967296

/-- Little-endian bytes of a `u64`, as the source's `to_le_bytes`. -/
def le8 (x : Nat) : List Nat :=
  [x % 256, x / 256 % 256, x / 65536 % 256, x / 16777216 % 256,
   x / 4294967296 % 256, x / 1099511627776 % 256,
   x / 281474976710656 % 256, x / 72057594037927936 % 256]

/-- Read a little-endian `u64` back from eight bytes. -/
def fromLe8 (l : List Nat) : Nat :=
  match l with
  | [b0, b1, b2, b3, b4, b5, b6, b7] =>
      b0 + b1 * 256 + b2 * 65536 + b3 * 16777216 + b4 * 4294967296 +
        b5 * 1099511627776 + b6 * 281474976710656 + b7 * 72057594037927936
  | _ => 0

theorem le8_length (x : Nat) : (le8 x).length = 8 := rfl

theorem le8_take (x : Nat) : (le8 x).take 8 = le8 x := rfl

theorem le8_drop (x : Nat) : (le8 x).drop 8 = [] := rfl

theorem fromLe8_le8 (x : Nat) (hx : x < 18446744073709551616) :
    fromLe8 (le8 x) = x := by
  unfold fromLe8 le8
  simp only
  omega

/-! ## SHA-256, modelled from the spec: `H(...)` is "SHA-256 over the
concatenated byte inputs" (the source uses the external `sha2` crate).
The implementation is the standard FIPS 180-4 algorithm over byte lists. -/

/-- Big-endian bytes of a 32-bit word. -/
def be32 (x : Nat) : List Nat :=
  [x / 16777216 % 256, x / 65536 % 256, x / 256 % 256, x % 256]

/-- Big-endian bytes of a 64-bit value (used for the SHA-256 length field). -/
def be64 (x : Nat) : List Nat :=
  be32 (x / 4294967296) ++ be32 x

/-- Right rotation of a 32-bit word. -/
def rotr32 (n x : Nat) : Nat := m32 ((x >>> n) ||| (x <<< (32 - n)))

/-- SHA-256 round constants. -/
def shaK : Array Nat := #[
  1116352408, 1899447441, 3049323471, 3921009573,
  961987163, 1508970993, 2453635748, 2870763221,
  3624381080, 310598401, 607225278, 1426881987,
  1925078388, 2162078206, 2614888103, 3248222580,
  3835390401, 4022224774, 264347078, 604807628,
  770255983, 1249150122, 1555081692, 1996064986,
  2554220882, 2821834349, 2952996808, 3210313671,
  3336571891, 3584528711, 113926993, 338241895,
  666307205, 773529912, 1294757372, 1396182291,
  1695183700, 1986661051, 2177026350, 2456956037,
  2730485921, 2820302411, 3259730800, 3345764771,
  3516065817, 3600352804, 4094571909, 275423344,
  430227734, 506948616, 659060556, 883997877,
  958139571, 1322822218, 1537002063, 1747873779,
  1955562222, 2024104815, 2227730452, 2361852424,
  2428436474, 2756734187, 3204031479, 3329325298]

/-- SHA-256 initial hash state. -/
def shaH0 : List Nat :=
  [1779033703, 3144134277, 1013904242, 2773480762,
   1359893119, 2600822924, 528734635, 1541459225]

/-- SHA-256 message padding. -/
def shaPad (msg : List Nat) : List Nat :=
  msg ++ [128] ++ List.replicate ((64 - (msg.length + 9) % 64) % 64) 0 ++
    be64 (8 * msg.length)

/-- Chunk four big-endian bytes into 32-bit words. -/
def toWords : List Nat → List Nat
  | a :: b :: c :: d :: rest =>
      (a * 16777216 + b * 65536 + c * 256 + d) :: toWords rest
  | _ => []

/-- Extend the 16 block words to the 64-entry message schedule. -/
def shaSchedule (w16 : List Nat) : Array Nat :=
  (List.range 48).foldl
    (fun w _ =>
      let i := w.size
      let w15 := w.getD (i - 15) 0
      let w2 := w.getD (i - 2) 0
      let s0 := (rotr32 7 w15) ^^^ (rotr32 18 w15) ^^^ (w15 >>> 3)
      let s1 := (rotr32 17 w2) ^^^ (rotr32 19 w2) ^^^ (w2 >>> 10)
      w.push (m32 (w.getD (i - 16) 0 + s0 + w.getD (i - 7) 0 + s1)))
    w16.toArray

/-- One SHA-256 compression round. -/
def shaRound (w : Array Nat) (st : List Nat) (i : Nat) : List Nat :=
  match st with
  | [a, b, c, d, e, f, g, h] =>
      let s1 := (rotr32 6 e) ^^^ (rotr32 11 e) ^^^ (rotr32 25 e)
      let ch := (e &&& f) ^^^ ((4294967295 - e) &&& g)
      let t1 := m32 (h + s1 + ch + shaK.getD i 0 + w.getD i 0)
      let s0 := (rotr32 2 a) ^^^ (rotr32 13 a) ^^^ (rotr32 22 a)
      let mj := (a &&& b) ^^^ (a &&& c) ^^^ (b &&& c)
      let t2 := m32 (s0 + mj)
      [m32 (t1 + t2), a, b, c, m32 (d + t1), e, f, g]
  | _ => st

/-- Compress one 64-byte block into the running state. -/
def shaCompress (st : List Nat) (block : List Nat) : List Nat :=
  let w := shaSchedule (toWords block)
  let st1 := (List.range 64).foldl (shaRound w) st
  List.zipWith (fun a b => m32 (a + b)) st st1

/-- Split a list into 64-byte blocks (the padded message length is a
multiple of 64). -/
def chunk64 : Nat → List Nat → List (List Nat)
  | 0, _ => []
  | _, [] => []
  | fuel + 1, l => l.take 64 :: chunk64 fuel (l.drop 64)

/-- SHA-256 digest (32 bytes) of a byte list. -/
def sha256 (msg : List Nat) : List Nat :=
  let padded := shaPad msg
  let final := (chunk64 padded.length padded).foldl shaCompress shaH0
  final.flatMap be32

/-! ## Certification data types (`src/utils/certification.rs`) -/

/-- A SHA-256 digest: 32 bytes. -/
abbrev Digest := List Nat

/-- `EMPTY_SHA256`: the 32-zero-byte digest. -/
def EMPTY_SHA256 : Digest := List.replicate 32 0

/-- `MerkleKV`: either the plain key-value pair or its pruned digest. -/
inductive MerkleKV (K V : Type) where
  | Plain (kv : K × V)
  | Pruned (d : Digest)
deriving DecidableEq

/-- `MerkleChild`: a pruned child digest or the hole the verifier fills. -/
inductive MerkleChild where
  | Pruned (d : Digest)
  | Hole
deriving DecidableEq

/-- `MerkleNode`: one step of a witness path. -/
structure MerkleNode (K V : Type) where
  key_value : MerkleKV K V
  left_child : MerkleChild
  right_child : MerkleChild
deriving DecidableEq

/-- `MerkleWitness`: a witness path plus reserved cross-node hashes. -/
structure MerkleWitness (K V : Type) where
  tree : List (MerkleNode K V)
  additional_hashes : List (Option Digest)

/-- `SCertifiedHashMapNode::sha256_entry`: hash of the key bytes followed by
the value bytes (`kb`/`vb` are the `ToHashableBytes` images). -/
def sha256_entry {K V : Type} (kb : K → List Nat) (vb : V → List Nat)
    (k : K) (v : V) : Digest :=
  sha256 (kb k ++ vb v)

/-- `SCertifiedHashMapNode::sha256_node`: hash of the entry digest followed by
the two child digests. -/
def sha256_node (e l r : Digest) : Digest :=
  sha256 (e ++ l ++ r)

/-- `MerkleWitness::reconstruct`.  The source panics on a malformed witness
(empty tree, `Hole` in the leaf, `Plain` above the leaf); those paths are
modelled as `none`.  Note the final digest is the hash of the concatenation
of the `additional_hashes` (with `None` entries replaced by the running
hash): with no additional hashes the finalized hasher has received no input. -/
def MerkleWitness.reconstruct {K V : Type} (kb : K → List Nat)
    (vb : V → List Nat) (w : MerkleWitness K V) :
    Option (MerkleKV K V × Digest) :=
  match w.tree with
  | [] => none
  | leaf :: branch =>
    match leaf.key_value, leaf.left_child, leaf.right_child with
    | MerkleKV.Plain (k, v), MerkleChild.Pruned lc, MerkleChild.Pruned rc =>
      let kvHash := sha256_entry kb vb k v
      let h0 := sha256 (kvHash ++ lc ++ rc)
      let step := fun (acc : Option Digest) (node : MerkleNode K V) =>
        match acc with
        | none => none
        | some h =>
          match node.key_value with
          | MerkleKV.Pruned vh =>
            let lbytes := match node.left_child with
              | MerkleChild.Pruned l => l
              | MerkleChild.Hole => h
            let rbytes := match node.right_child with
              | MerkleChild.Pruned r => r
              | MerkleChild.Hole => h
            some (sha256 (vh ++ lbytes ++ rbytes))
          | _ => none
      match branch.foldl step (some h0) with
      | none => none
      | some h =>
        let finalInput := w.additional_hashes.foldl
          (fun acc add => acc ++ (match add with | some a => a | none => h)) []
        some (leaf.key_value, sha256 finalInput)
    | _, _, _ => none

/-! ## Certified hash map node (`src/collections/certified_hash_map/node.rs`)

The node state is the functional image of the node's backing region: the
`len` header field and the four parallel arrays.  Slots carry the occupancy
flag as `Option` (`EMPTY` ↦ `none`, `OCCUPIED k` ↦ `some k`).  Operations
take the capacity as an argument, exactly as the source methods do.  The
key hash (external `ZwoHasher`) is modelled from the spec as an arbitrary
function `hashKey : K → Nat` ("64-bit non-cryptographic mixing hash"). -/

structure SCertifiedHashMapNode (K V : Type) where
  len : Nat
  slots : List (Option K)
  vals : List V
  entryH : List Digest
  nodeH : List Digest
deriving DecidableEq

namespace SCertifiedHashMapNode

variable {K V : Type} [DecidableEq K] [Inhabited V]

/-- A fresh node: the zeroed backing region of `new(capacity)` seen through
the read accessors (len 0, every slot `EMPTY`, every digest zero, values
zeroed). -/
def mk0 (cap : Nat) : SCertifiedHashMapNode K V :=
  { len := 0
    slots := List.replicate cap none
    vals := List.replicate cap default
    entryH := List.replicate cap EMPTY_SHA256
    nodeH := List.replicate cap EMPTY_SHA256 }

/-- `read_key_at` (with `read_value = true`). -/
def readKeyAt (n : SCertifiedHashMapNode K V) (i : Nat) : Option K :=
  n.slots.getD i none

/-- `read_val_at`. -/
def readValAt (n : SCertifiedHashMapNode K V) (i : Nat) : V :=
  n.vals.getD i default

/-- `read_node_hash_at`. -/
def readNodeHashAt (n : SCertifiedHashMapNode K V) (i : Nat) : Digest :=
  n.nodeH.getD i EMPTY_SHA256

/-- `read_entry_hash_at`. -/
def readEntryHashAt (n : SCertifiedHashMapNode K V) (i : Nat) : Digest :=
  n.entryH.getD i EMPTY_SHA256

/-- `read_root_hash`. -/
def readRootHash (n : SCertifiedHashMapNode K V) : Digest :=
  n.readNodeHashAt 0

/-- `get_entry_sha256_at`: zero digest for an empty slot, else the stored
entry hash. -/
def getEntrySha256At (n : SCertifiedHashMapNode K V) (i : Nat) : Digest :=
  match n.slots.getD i none with
  | none => EMPTY_SHA256
  | some _ => n.readEntryHashAt i

/-- `read_children_node_hashes_of`: zero digests past the `(capacity-1)/2`
leaf cutoff, else the two stored child hashes. -/
def readChildrenNodeHashesOf (n : SCertifiedHashMapNode K V) (i cap : Nat) :
    Digest × Digest :=
  if (cap - 1) / 2 ≤ i then (EMPTY_SHA256, EMPTY_SHA256)
  else (n.readNodeHashAt ((i + 1) * 2 - 1), n.readNodeHashAt ((i + 1) * 2))

/-- `write_node_hash_at`. -/
def writeNodeHashAt (n : SCertifiedHashMapNode K V) (i : Nat) (h : Digest) :
    SCertifiedHashMapNode K V :=
  { n with nodeH := n.nodeH.set i h }

/-- `write_entry_hash_at`. -/
def writeEntryHashAt (n : SCertifiedHashMapNode K V) (i : Nat) (h : Digest) :
    SCertifiedHashMapNode K V :=
  { n with entryH := n.entryH.set i h }

/-- `is_full`: the load-factor cap test. -/
def is_full (len cap : Nat) : Bool :=
  if cap < 12 then len == cap * 3 / 4 else len == cap / 4 * 3

/-- The load cap itself (spec: `loadCap(C) = C·3/4` if `C < 12` else
`(C/4)·3`). -/
def loadCap (cap : Nat) : Nat :=
  if cap < 12 then cap * 3 / 4 else cap / 4 * 3

/-- `recalculate_merkle_tree`: walk from index `i` to the root, rehashing
each parent from the running hash and the stored sibling hash.  The source
`while i > 0` loop strictly decreases `i`; callers pass `fuel = i`. -/
def recalculateMerkleTree (fuel : Nat) (n : SCertifiedHashMapNode K V)
    (nodeSha : Digest) (i cap : Nat) : SCertifiedHashMapNode K V × Digest :=
  match fuel with
  | 0 => (n, nodeSha)
  | fuel + 1 =>
    if i = 0 then (n, nodeSha)
    else if i % 2 = 1 then
      let r := if i + 1 < cap then n.readNodeHashAt (i + 1) else EMPTY_SHA256
      let p := i / 2
      let newSha := sha256_node (n.getEntrySha256At p) nodeSha r
      recalculateMerkleTree fuel (n.writeNodeHashAt p newSha) newSha p cap
    else
      let l := n.readNodeHashAt (i - 1)
      let p := (i - 1) / 2
      let newSha := sha256_node (n.getEntrySha256At p) l nodeSha
      recalculateMerkleTree fuel (n.writeNodeHashAt p newSha) newSha p cap

/-- The probing loop of `insert`.  The source loop walks `i = (i+1) % cap`
until it finds the key or an empty slot; under the node invariants it
terminates within `cap` steps, so callers pass `fuel = cap`. -/
def insertLoop (hashKey : K → Nat) (fuel : Nat) (n : SCertifiedHashMapNode K V)
    (key : K) (val : V) (entrySha : Digest) (i cap : Nat) :
    Except (K × V) (Option V × Bool × Nat × Digest) × SCertifiedHashMapNode K V :=
  match fuel with
  | 0 => (Except.error (key, val), n)
  | fuel + 1 =>
    match n.slots.getD i none with
    | some prevKey =>
      if prevKey = key then
        let prevVal := n.readValAt i
        let n1 : SCertifiedHashMapNode K V := { n with vals := n.vals.set i val }
        let (lc, rc) := n1.readChildrenNodeHashesOf i cap
        let nodeSha := sha256_node entrySha lc rc
        let n2 := (n1.writeNodeHashAt i nodeSha).writeEntryHashAt i entrySha
        let (n3, rootSha) :=
          if 0 < i then recalculateMerkleTree i n2 nodeSha i cap else (n2, nodeSha)
        (Except.ok (some prevVal, false, i, rootSha), n3)
      else
        insertLoop hashKey fuel n key val entrySha ((i + 1) % cap) cap
    | none =>
      if is_full n.len cap then (Except.error (key, val), n)
      else
        let n1 : SCertifiedHashMapNode K V :=
          { n with len := m64 (n.len + 1),
                   slots := n.slots.set i (some key),
                   vals := n.vals.set i val }
        let (lc, rc) := n1.readChildrenNodeHashesOf i cap
        let nodeSha := sha256_node entrySha lc rc
        let n2 := (n1.writeNodeHashAt i nodeSha).writeEntryHashAt i entrySha
        let (n3, rootSha) :=
          if 0 < i then recalculateMerkleTree i n2 nodeSha i cap else (n2, nodeSha)
        (Except.ok (none, true, i, rootSha), n3)

/-- `insert`. -/
def insert (kb : K → List Nat) (vb : V → List Nat) (hashKey : K → Nat)
    (n : SCertifiedHashMapNode K V) (key : K) (val : V) (cap : Nat) :
    Except (K × V) (Option V × Bool × Nat × Digest) × SCertifiedHashMapNode K V :=
  insertLoop hashKey cap n key val (sha256_entry kb vb key val)
    (hashKey key % cap) cap

/-- The probing loop of `find_inner_idx`; as for `insertLoop`, callers pass
`fuel = cap`. -/
def findLoop (fuel : Nat) (n : SCertifiedHashMapNode K V) (key : K)
    (i cap : Nat) : Option (Nat × K) :=
  match fuel with
  | 0 => none
  | fuel + 1 =>
    match n.slots.getD i none with
    | some k => if k = key then some (i, k) else findLoop fuel n key ((i + 1) % cap) cap
    | none => none

/-- `find_inner_idx`. -/
def findInnerIdx (hashKey : K → Nat) (n : SCertifiedHashMapNode K V)
    (key : K) (cap : Nat) : Option (Nat × K) :=
  findLoop cap n key (hashKey key % cap) cap

/-- The back-shift loop of `remove_by_idx`: scan forward from the hole `i`,
moving any entry whose probe chain crosses the hole, recording the
overwritten positions.  `j` is the last examined index (initially `i`);
the loop runs at most `cap` iterations, so callers pass `fuel = cap`. -/
def shiftLoop (hashKey : K → Nat) (fuel : Nat) (n : SCertifiedHashMapNode K V)
    (i j cap : Nat) (is : List Nat) : SCertifiedHashMapNode K V × Nat × List Nat :=
  match fuel with
  | 0 => (n, i, is)
  | fuel + 1 =>
    let j1 := (j + 1) % cap
    if j1 = i then (n, i, is)
    else
      match n.slots.getD j1 none with
      | none => (n, i, is)
      | some nextKey =>
        let k := hashKey nextKey % cap
        if (decide (j1 < i)).xor ((decide (k ≤ i)).xor (decide (j1 < k))) then
          let n1 : SCertifiedHashMapNode K V :=
            { n with slots := n.slots.set i (some nextKey),
                     vals := n.vals.set i (n.readValAt j1),
                     entryH := n.entryH.set i (n.readEntryHashAt j1) }
          shiftLoop hashKey fuel n1 j1 j1 cap (is ++ [i])
        else
          shiftLoop hashKey fuel n i j1 cap is

/-- One pass of the post-deletion rehash loop: recompute the node hash of a
touched index from its entry hash and children, then propagate to the root. -/
def touchPass (acc : SCertifiedHashMapNode K V × Digest) (idx cap : Nat) :
    SCertifiedHashMapNode K V × Digest :=
  let m := acc.1
  let (lc, rc) := m.readChildrenNodeHashesOf idx cap
  let nh := sha256_node (m.getEntrySha256At idx) lc rc
  recalculateMerkleTree idx (m.writeNodeHashAt idx nh) nh idx cap

/-- `remove_by_idx`. -/
def removeByIdx (hashKey : K → Nat) (n : SCertifiedHashMapNode K V)
    (i cap : Nat) : (V × Digest) × SCertifiedHashMapNode K V :=
  let prevValue := n.readValAt i
  let n0 : SCertifiedHashMapNode K V := { n with len := m64 (n.len + 18446744073709551615) }
  let (n1, i1, is) := shiftLoop hashKey cap n0 i i cap []
  let n2 : SCertifiedHashMapNode K V := { n1 with slots := n1.slots.set i1 none }
  let (lc, rc) := n2.readChildrenNodeHashesOf i1 cap
  let nodeHash := sha256_node EMPTY_SHA256 lc rc
  let n3 := n2.writeNodeHashAt i1 nodeHash
  let (n4, rootHash) :=
    if 0 < i1 then recalculateMerkleTree i1 n3 nodeHash i1 cap else (n3, nodeHash)
  let (n5, rootHash1) :=
    is.reverse.foldl (fun acc idx => touchPass acc idx cap) (n4, rootHash)
  ((prevValue, rootHash1), n5)

/-- `remove`. -/
def remove (hashKey : K → Nat) (n : SCertifiedHashMapNode K V)
    (key : K) (cap : Nat) :
    Option (V × Digest) × SCertifiedHashMapNode K V :=
  match findInnerIdx hashKey n key cap with
  | none => (none, n)
  | some (i, _) =>
    let (r, n1) := removeByIdx hashKey n i cap
    (some r, n1)

/-- Lookup of the value stored for a key (the `find` of the spec):
`find_inner_idx` followed by `read_val_at`. -/
def find (hashKey : K → Nat) (n : SCertifiedHashMapNode K V)
    (key : K) (cap : Nat) : Option V :=
  match findInnerIdx hashKey n key cap with
  | none => none
  | some (i, _) => some (n.readValAt i)

/-- The upward walk of `witness_key`; callers pass `fuel = idx`. -/
def witnessLoop (fuel : Nat) (n : SCertifiedHashMapNode K V) (idx cap : Nat)
    (acc : List (MerkleNode K V)) : List (MerkleNode K V) :=
  match fuel with
  | 0 => acc
  | fuel + 1 =>
    if idx = 0 then acc
    else if idx % 2 = 1 then
      let r := if idx + 1 < cap then n.readNodeHashAt (idx + 1) else EMPTY_SHA256
      let p := idx / 2
      let node : MerkleNode K V :=
        { key_value := MerkleKV.Pruned (n.getEntrySha256At p)
          left_child := MerkleChild.Hole
          right_child := MerkleChild.Pruned r }
      witnessLoop fuel n p cap (acc ++ [node])
    else
      let l := n.readNodeHashAt (idx - 1)
      let p := (idx - 1) / 2
      let node : MerkleNode K V :=
        { key_value := MerkleKV.Pruned (n.getEntrySha256At p)
          left_child := MerkleChild.Pruned l
          right_child := MerkleChild.Hole }
      witnessLoop fuel n p cap (acc ++ [node])

/-- `witness_key`. -/
def witness_key (hashKey : K → Nat) (n : SCertifiedHashMapNode K V)
    (key : K) (cap : Nat) : Option (List (MerkleNode K V)) :=
  match findInnerIdx hashKey n key cap with
  | none => none
  | some (idx, k) =>
    let v := n.readValAt idx
    let (lcHash, rcHash) := n.readChildrenNodeHashesOf idx cap
    let first : MerkleNode K V :=
      { key_value := MerkleKV.Plain (k, v)
        left_child := MerkleChild.Pruned lcHash
        right_child := MerkleChild.Pruned rcHash }
    if idx = 0 then some [first]
    else some (witnessLoop idx n idx cap [first])

end SCertifiedHashMapNode

/-! ## Byte-level model of `SCertifiedHashMapNode::new` (for the layout and
overflow behaviour).  The backing region is a byte list; `allocate` (whose
code is not under `src/`) is modelled as returning a fresh region which
`new` immediately zeroes. -/

/-- Read `cnt` bytes at `off` from a byte region. -/
def readBytesL (r : List Nat) (off cnt : Nat) : List Nat :=
  (r.drop off).take cnt

/-- Read a little-endian `u64` at `off` from a byte region. -/
def readU64L (r : List Nat) (off : Nat) : Nat :=
  fromLe8 (readBytesL r off 8)

/-- Overwrite the bytes at `off` with `bs`. -/
def setBytesL (r : List Nat) (off : Nat) (bs : List Nat) : List Nat :=
  r.take off ++ bs ++ r.drop (off + bs.length)

/-- `entry_hashes_offset`, with release-mode wrapping `usize` arithmetic. -/
def entry_hashes_offset (cap : Nat) : Nat :=
  m64 (24 + m64 (32 * cap))

/-- `keys_offset`, with release-mode wrapping `usize` arithmetic. -/
def keys_offset (cap : Nat) : Nat :=
  m64 (entry_hashes_offset cap + m64 (32 * cap))

/-- The checked size computation of `new`:
`(1 + K::SIZE + V::SIZE).checked_mul(capacity)` followed by
`checked_add(keys_offset(capacity))` (the additions forming the factor and
the interior of `keys_offset` wrap). -/
def newSize (KSz VSz cap : Nat) : Option Nat :=
  if m64 (1 + KSz + VSz) * cap < 18446744073709551616 then
    if m64 (1 + KSz + VSz) * cap + keys_offset cap < 18446744073709551616 then
      some (m64 (1 + KSz + VSz) * cap + keys_offset cap)
    else none
  else none

/-- `SCertifiedHashMapNode::new`, at the byte level: on a successful size
check, allocate a region of that size, zero it, and write the capacity at
offset 8. -/
def newNodeBytes (KSz VSz cap : Nat) : Option (List Nat) :=
  (newSize KSz VSz cap).map
    (fun size => setBytesL (List.replicate size 0) 8 (le8 (m64 cap)))

/-- The claim's mathematical layout size:
`(1 + K::SIZE + V::SIZE) * capacity + keys_offset(capacity)` with
`keys_offset` read as exact (non-wrapping) arithmetic.  This is the
spec-side definition the code's checked computation is compared against. -/
def nodeLayoutBytes (KSz VSz cap : Nat) : Nat :=
  (1 + KSz + VSz) * cap + (24 + 32 * cap + 32 * cap)

/-- Modelled from the spec: `hash_key` is the external `ZwoHasher`, "a
64-bit non-cryptographic mixing hash".  The node operations take the hash
function as a parameter; concrete scenarios instantiate it with the
identity, which the spec's wording admits. -/
def scenarioHash : Nat → Nat := fun k => k

/-- A capacity-7 node (keys and values `u64`) holding the single entry
`(1, 10)`. -/
def c1Node : SCertifiedHashMapNode Nat Nat :=
  (SCertifiedHashMapNode.insert le8 le8 scenarioHash
    (SCertifiedHashMapNode.mk0 7) 1 10 7).2

set_option maxRecDepth 40000 in
/-- C1: evaluating the code at the failing input.  For the key `1` present
with value `10`, reconstructing the witness produced by `witness_key`
(with an empty `additional_hashes` list) yields the pair
`(Plain(1,10), sha256 [])` — the digest of the empty byte string, because
`reconstruct` finalizes a freshly reset hasher after the tree loop — and
that digest differs from the node's root hash `node_hashes[0]`. -/
theorem c1_reconstruct_empty_additional_bug :
    (SCertifiedHashMapNode.witness_key scenarioHash c1Node 1 7).map
        (fun t => MerkleWitness.reconstruct le8 le8 ⟨t, []⟩) =
      some (some (MerkleKV.Plain (1, 10), sha256 [])) ∧
    sha256 [] ≠ SCertifiedHashMapNode.readRootHash c1Node := by
  constructor
  · decide
  · decide

/-- C9 counterexample: with `K::SIZE = V::SIZE = 8` and
`capacity = 2^59`, the true layout size
`(1 + K::SIZE + V::SIZE)·capacity + keys_offset(capacity)` overflows
`usize`, yet `new` does not return `None`: the wrapping evaluation of
`keys_offset` makes the checked computation succeed. -/
theorem c9_new_overflow_counterexample :
    (newNodeBytes 8 8 576460752303423488).isSome = true ∧
    18446744073709551616 ≤ nodeLayoutBytes 8 8 576460752303423488 := by
  constructor
  · show (Option.map _ (newSize 8 8 576460752303423488)).isSome = true
    have h : newSize 8 8 576460752303423488 = some 9799832789158199320 := by decide
    rw [h]
    rfl
  · decide

/-- C9 (amended): `new` returns `None` exactly when the checked size
computation — whose `keys_offset` summand is evaluated with wrapping
`usize` arithmetic — overflows; and whenever the true layout size fits in
`usize`, `new` returns a region zeroed except for the capacity field, so
`len = 0`, `next = 0`, every node hash and entry hash reads as the 32-zero
digest and every slot flag reads as `EMPTY`. -/
theorem c9_new_none_iff_and_zeroed (KSz VSz cap : Nat) :
    (newNodeBytes KSz VSz cap = none ↔
      18446744073709551616 ≤ m64 (1 + KSz + VSz) * cap + keys_offset cap) ∧
    ((1 + KSz + VSz) * cap + (24 + 64 * cap) < 18446744073709551616 →
      ∃ r, newNodeBytes KSz VSz cap = some r ∧
        r.length = (1 + KSz + VSz) * cap + keys_offset cap ∧
        readU64L r 0 = 0 ∧ readU64L r 8 = cap ∧ readU64L r 16 = 0 ∧
        (∀ i, i < cap → readBytesL r (24 + 32 * i) 32 = EMPTY_SHA256) ∧
        (∀ i, i < cap → readBytesL r (24 + 32 * cap + 32 * i) 32 = EMPTY_SHA256) ∧
        (∀ i, i < cap → r.getD (keys_offset cap + (1 + KSz) * i) 1 = 0)) := by
  constructor
  · have hmap : (newNodeBytes KSz VSz cap = none) ↔ (newSize KSz VSz cap = none) := by
      unfold newNodeBytes
      exact Option.map_eq_none'
    rw [hmap]
    unfold newSize
    by_cases h1 : m64 (1 + KSz + VSz) * cap < 18446744073709551616
    · by_cases h2 :
          m64 (1 + KSz + VSz) * cap + keys_offset cap < 18446744073709551616
      · rw [if_pos h1, if_pos h2]
        constructor
        · intro hc
          exact absurd hc (Option.some_ne_none _)
        · intro hge
          omega
      · rw [if_pos h1, if_neg h2]
        constructor
        · intro _
          omega
        · intro _
          rfl
    · rw [if_neg h1]
      constructor
      · intro _
        omega
      · intro _
        rfl
  · intro h
    have hmul : (1 + KSz + VSz) * cap < 18446744073709551616 := by omega
    have hcap : cap < 18446744073709551616 := by
      have : cap ≤ (1 + KSz + VSz) * cap := Nat.le_mul_of_pos_left cap (by omega)
      omega
    have hko : keys_offset cap = 24 + 64 * cap := by
      unfold keys_offset entry_hashes_offset m64
      omega
    have hprod : m64 (1 + KSz + VSz) * cap = (1 + KSz + VSz) * cap := by
      rcases Nat.eq_zero_or_pos cap with hc0 | hc1
      · simp [hc0]
      · have hle : 1 + KSz + VSz ≤ (1 + KSz + VSz) * cap :=
          Nat.le_mul_of_pos_right _ hc1
        unfold m64
        rw [Nat.mod_eq_of_lt (by omega)]
    set S : Nat := (1 + KSz + VSz) * cap + (24 + 64 * cap) with hS
    have hsize : newSize KSz VSz cap = some S := by
      unfold newSize
      rw [hprod, hko, if_pos (by omega), if_pos (by omega)]
    have hm64cap : m64 cap = cap := Nat.mod_eq_of_lt hcap
    have hr : newNodeBytes KSz VSz cap =
        some (List.replicate 8 0 ++ le8 cap ++ List.replicate (S - 16) 0) := by
      unfold newNodeBytes setBytesL
      rw [hsize, Option.map_some', hm64cap, le8_length, List.take_replicate,
        List.drop_replicate]
      have h8 : min 8 S = 8 := by omega
      rw [h8]
    have hdrop16 : ∀ k : Nat, 16 ≤ k →
        (List.replicate 8 0 ++ le8 cap ++ List.replicate (S - 16) 0).drop k =
          List.replicate (S - 16 - (k - 16)) (0 : Nat) := by
      intro k hk
      rw [List.append_assoc, List.drop_append_eq_append_drop,
        List.length_replicate, List.drop_replicate,
        show (8 : Nat) - k = 0 by omega, List.replicate_zero, List.nil_append,
        List.drop_append_eq_append_drop, le8_length, List.drop_replicate]
      rw [show (le8 cap).drop (k - 8) = [] from
        List.drop_eq_nil_of_le (by rw [le8_length]; omega), List.nil_append,
        show k - 8 - 8 = k - 16 by omega]
    refine ⟨_, hr, ?_, ?_, ?_, ?_, ?_, ?_, ?_⟩
    · simp only [List.length_append, List.length_replicate, le8_length]
      rw [hko]
      omega
    · unfold readU64L readBytesL
      rw [List.drop_zero, List.append_assoc, List.take_append_eq_append_take,
        List.length_replicate, List.take_replicate,
        show (8 : Nat) - 8 = 0 by rfl, List.take_zero, List.append_nil,
        show min 8 8 = 8 by rfl]
      rfl
    · unfold readU64L readBytesL
      rw [List.append_assoc, List.drop_append_eq_append_drop,
        List.length_replicate, List.drop_replicate,
        show (8 : Nat) - 8 = 0 by rfl, List.replicate_zero, List.nil_append,
        List.drop_zero, List.take_append_eq_append_take, le8_length,
        show (8 : Nat) - 8 = 0 by rfl, List.take_zero, List.append_nil, le8_take]
      exact fromLe8_le8 cap hcap
    · unfold readU64L readBytesL
      rw [hdrop16 16 (by omega), List.take_replicate,
        show min 8 (S - 16 - (16 - 16)) = 8 by omega]
      rfl
    · intro i hi
      have hlt : 32 * i + 32 ≤ 32 * cap := by omega
      unfold readBytesL
      rw [hdrop16 (24 + 32 * i) (by omega), List.take_replicate,
        show min 32 (S - 16 - (24 + 32 * i - 16)) = 32 by omega]
      rfl
    · intro i hi
      have hlt : 32 * i + 32 ≤ 32 * cap := by omega
      unfold readBytesL
      rw [hdrop16 (24 + 32 * cap + 32 * i) (by omega), List.take_replicate,
        show min 32 (S - 16 - (24 + 32 * cap + 32 * i - 16)) = 32 by omega]
      rfl
    · intro i hi
      have hq : keys_offset cap + (1 + KSz) * i < S := by
        rw [hko]
        have h1 : (1 + KSz) * i + (1 + KSz) = (1 + KSz) * (i + 1) := by ring
        have h2 : (1 + KSz) * (i + 1) ≤ (1 + KSz) * cap :=
          Nat.mul_le_mul_left _ hi
        have h3 : (1 + KSz) * cap ≤ (1 + KSz + VSz) * cap :=
          Nat.mul_le_mul_right _ (by omega)
        omega
      have hq16 : 16 ≤ keys_offset cap + (1 + KSz) * i := by
        rw [hko]
        omega
      have hgd : ∀ (l : List Nat) (k : Nat) (d : Nat), l.getD k d = (l.drop k).headD d := by
        intro l k d
        rw [List.getD_eq_getElem?_getD, List.headD_eq_head?_getD,
          List.head?_drop]
      rw [hgd, hdrop16 _ hq16]
      have hpos : 0 < S - 16 - (keys_offset cap + (1 + KSz) * i - 16) := by
        rw [hko] at hq ⊢
        omega
      rcases Nat.exists_eq_succ_of_ne_zero (Nat.pos_iff_ne_zero.mp hpos) with ⟨m, hm⟩
      rw [hm, List.replicate_succ]
      rfl

/-! ## Stable memory and blocks

The host primitive (spec §6.1) and the `SSlice`/`FreeBlock` helpers
(spec §3.2, §4.1, §4.2) are not under `src/`; they are modelled from the
spec: memory is a byte function, every block carries an 8-byte sentinel
word at each end encoding the payload size with the high bit as the
allocated flag, and neighbours are found by reading the word just before
the header or just after the trailer. -/

/-- Stable memory, byte-addressed. -/
def Mem := Nat → Nat

/-- Write one byte. -/
def writeByte (m : Mem) (a v : Nat) : Mem :=
  fun x => if x = a then v else m x

/-- Write a byte list starting at `a`. -/
def writeBytes (m : Mem) (a : Nat) : List Nat → Mem
  | [] => m
  | b :: rest => writeBytes (writeByte m a b) (a + 1) rest

/-- Read `cnt` bytes starting at `a`. -/
def readBytes (m : Mem) (a cnt : Nat) : List Nat :=
  (List.range cnt).map (fun i => m (a + i))

/-- Read a little-endian `u64` word. -/
def readU64 (m : Mem) (a : Nat) : Nat := fromLe8 (readBytes m a 8)

/-- Write a little-endian `u64` word. -/
def writeU64 (m : Mem) (a v : Nat) : Mem := writeBytes m a (le8 v)

/-- Wrapping `u64` subtraction (`b` is reduced; `a` is assumed reduced). -/
def sub64 (a b : Nat) : Nat :=
  (a + 18446744073709551616 - b % 18446744073709551616) % 18446744073709551616

/-- Wrapping `u64` addition. -/
def add64 (a b : Nat) : Nat := m64 (a + b)

/-- The high bit of a sentinel word: the allocated flag (spec §3.2). -/
def ALLOCATED_FLAG : Nat := 9223372036854775808

/-- `ALLOCATOR_PTR`. -/
def ALLOCATOR_PTR : Nat := 0

/-- `MIN_PTR`: the first byte past the reserved root word. -/
def MIN_PTR : Nat := 8

/-- `PAGE_SIZE_BYTES`. -/
def PAGE_SIZE_BYTES : Nat := 65536

/-- Does a sentinel word carry the allocated flag? -/
def sentinelIsAllocated (w : Nat) : Bool := ALLOCATED_FLAG ≤ w

/-- The payload size encoded in a sentinel word. -/
def sentinelSize (w : Nat) : Nat := w % ALLOCATED_FLAG

/-- Modelled from the spec: a `FreeBlock` is a block in free state,
identified by its payload pointer and payload size. -/
structure FreeBlock where
  ptr : Nat
  size : Nat
deriving DecidableEq

/-- Modelled from the spec: an allocated slice, a typed view over
`[ptr, ptr + size)`. -/
structure SSlice where
  ptr : Nat
  size : Nat
deriving DecidableEq

namespace FreeBlock

/-- `get_total_size_bytes`: payload plus the two sentinels. -/
def get_total_size_bytes (b : FreeBlock) : Nat := b.size + 16

/-- `new_total_size`: the block occupying `[start, start + total)`. -/
def new_total_size (start total : Nat) : FreeBlock :=
  ⟨start + 8, total - 16⟩

/-- `persist`: write both sentinels with the free flag. -/
def persist (b : FreeBlock) (m : Mem) : Mem :=
  writeU64 (writeU64 m (b.ptr - 8) b.size) (b.ptr + b.size) b.size

/-- `can_split`: the remainder must itself be a legal free block
(`size ≥ needed + 2·HDR + MIN_PAYLOAD`). -/
def can_split (size needed : Nat) : Bool := needed + 32 ≤ size

/-- `split`: cut the block at payload `new_payload`; both halves' sentinels
are rewritten as free. -/
def split (b : FreeBlock) (newPayload : Nat) (m : Mem) :
    (FreeBlock × FreeBlock) × Mem :=
  let a : FreeBlock := ⟨b.ptr, newPayload⟩
  let c : FreeBlock := ⟨b.ptr + newPayload + 16, b.size - newPayload - 16⟩
  ((a, c), c.persist (a.persist m))

/-- `merged_size`: the payload of the fused block. -/
def merged_size (a b : FreeBlock) : Nat := a.size + b.size + 16

/-- `merge`: fuse two adjacent blocks (`a.end = b.start`). -/
def merge (a b : FreeBlock) : FreeBlock := ⟨a.ptr, a.size + b.size + 16⟩

/-- `prev_neighbor_is_free`: read the trailing sentinel of the previous
block at `ptr - 16` (only when `ptr > MIN_PTR + HDR`). -/
def prev_neighbor_is_free (b : FreeBlock) (m : Mem) : Option FreeBlock :=
  if MIN_PTR + 8 < b.ptr then
    let w := readU64 m (b.ptr - 16)
    if sentinelIsAllocated w then none
    else some ⟨b.ptr - 16 - sentinelSize w, sentinelSize w⟩
  else none

/-- `next_neighbor_is_free`: read the leading sentinel of the next block at
`ptr + size + HDR` (only when that address is below `max_ptr`). -/
def next_neighbor_is_free (b : FreeBlock) (m : Mem) (maxPtr : Nat) :
    Option FreeBlock :=
  let addr := b.ptr + b.size + 8
  if addr < maxPtr then
    let w := readU64 m addr
    if sentinelIsAllocated w then none
    else some ⟨addr + 8, sentinelSize w⟩
  else none

/-- `to_allocated`: flip both sentinels to allocated and view as a slice. -/
def to_allocated (b : FreeBlock) (m : Mem) : SSlice × Mem :=
  (⟨b.ptr, b.size⟩,
    writeU64 (writeU64 m (b.ptr - 8) (b.size + ALLOCATED_FLAG))
      (b.ptr + b.size) (b.size + ALLOCATED_FLAG))

end FreeBlock

namespace SSlice

/-- `from_ptr`: read the leading sentinel; the block must be allocated. -/
def from_ptr (m : Mem) (p : Nat) : Option SSlice :=
  let w := readU64 m (p - 8)
  if sentinelIsAllocated w then some ⟨p, sentinelSize w⟩ else none

/-- `get_size_bytes`. -/
def get_size_bytes (s : SSlice) : Nat := s.size

/-- `to_free_block`: flip both sentinels back to free. -/
def to_free_block (s : SSlice) (m : Mem) : FreeBlock × Mem :=
  (⟨s.ptr, s.size⟩,
    writeU64 (writeU64 m (s.ptr - 8) s.size) (s.ptr + s.size) s.size)

end SSlice

/-! ## Ordered-map helpers.  The source keeps `free_blocks` in a
`BTreeMap<usize, Vec<FreeBlock>>` (keys ascending, each vector sorted by
pointer) and `custom_data_pointers` in a `HashMap`; both are modelled as
canonical sorted association lists. -/

/-- Lookup in an association list. -/
def assocGet {α : Type} (l : List (Nat × α)) (k : Nat) : Option α :=
  (l.find? (fun e => e.1 == k)).map Prod.snd

/-- Insert or replace, keeping keys sorted ascending. -/
def assocSet {α : Type} : List (Nat × α) → Nat → α → List (Nat × α)
  | [], k, v => [(k, v)]
  | (k', v') :: rest, k, v =>
    if k < k' then (k, v) :: (k', v') :: rest
    else if k = k' then (k, v) :: rest
    else (k', v') :: assocSet rest k v

/-- Remove a key. -/
def assocRemove {α : Type} : List (Nat × α) → Nat → List (Nat × α)
  | [], _ => []
  | (k', v') :: rest, k =>
    if k = k' then rest else (k', v') :: assocRemove rest k

/-- Sorted insertion into a pointer vector (the `binary_search` insert). -/
def insertSortedNat : List Nat → Nat → List Nat
  | [], x => [x]
  | y :: rest, x => if x < y then x :: y :: rest else y :: insertSortedNat rest x

/-- Remove one occurrence from a pointer vector (the `binary_search`
removal). -/
def removeOneNat : List Nat → Nat → List Nat
  | [], _ => []
  | y :: rest, x => if x = y then rest else y :: removeOneNat rest x

/-- `ceil_div`, modelled from the spec ("grow by `ceil(size / PAGE_SIZE)`
pages"; the helper lives outside `src/`). -/
def ceil_div (a b : Nat) : Nat := (a + b - 1) / b

/-! ## The allocator (`src/mem/allocator.rs`) -/

/-- `StableMemoryAllocator`: the persisted struct. -/
structure StableMemoryAllocator where
  free_blocks : List (Nat × List Nat)
  custom_data_pointers : List (Nat × Nat)
  free_size : Nat
  available_size : Nat
  max_ptr : Nat
deriving DecidableEq

/-- The allocator together with the ambient stable memory and its page
count (the `stable` host state). -/
structure AWorld where
  sma : StableMemoryAllocator
  mem : Mem
  pages : Nat

namespace StableMemoryAllocator

/-- The `Default` allocator: everything empty/zero. -/
def default0 : StableMemoryAllocator := ⟨[], [], 0, 0, 0⟩

/-- `pad_size`: sizes below 16 become 16, otherwise round up to the next
multiple of 8 (`(size + 7) & !7`). -/
def pad_size (size : Nat) : Nat :=
  if size < 16 then 16 else m64 (size + 7) / 8 * 8

/-- `get_allocated_size` (wrapping `u64` subtraction). -/
def get_allocated_size (a : StableMemoryAllocator) : Nat :=
  sub64 a.available_size a.free_size

/-- `get_available_size`. -/
def get_available_size (a : StableMemoryAllocator) : Nat := a.available_size

/-- `get_free_size`. -/
def get_free_size (a : StableMemoryAllocator) : Nat := a.free_size

/-- `more_available_size`. -/
def more_available_size (a : StableMemoryAllocator) (n : Nat) :
    StableMemoryAllocator :=
  { a with available_size := add64 a.available_size n }

/-- `more_free_size`. -/
def more_free_size (a : StableMemoryAllocator) (n : Nat) :
    StableMemoryAllocator :=
  { a with free_size := add64 a.free_size n }

/-- `less_free_size` (wrapping). -/
def less_free_size (a : StableMemoryAllocator) (n : Nat) :
    StableMemoryAllocator :=
  { a with free_size := sub64 a.free_size n }

/-- `set_custom_data_ptr`: `HashMap::insert`, returning the previous
binding. -/
def set_custom_data_ptr (a : StableMemoryAllocator) (idx ptr : Nat) :
    Option Nat × StableMemoryAllocator :=
  (assocGet a.custom_data_pointers idx,
   { a with custom_data_pointers := assocSet a.custom_data_pointers idx ptr })

/-- `get_custom_data_ptr`. -/
def get_custom_data_ptr (a : StableMemoryAllocator) (idx : Nat) : Option Nat :=
  assocGet a.custom_data_pointers idx

/-- `push_free_block`: persist the block's sentinels and insert its pointer
into its size bucket at the sorted position. -/
def push_free_block (w : AWorld) (b : FreeBlock) : AWorld :=
  let m1 := b.persist w.mem
  let buckets :=
    match assocGet w.sma.free_blocks b.size with
    | some ps => assocSet w.sma.free_blocks b.size (insertSortedNat ps b.ptr)
    | none => assocSet w.sma.free_blocks b.size [b.ptr]
  { w with mem := m1, sma := { w.sma with free_blocks := buckets } }

/-- `pop_free_block`: take the last block of the first bucket whose size is
at least `size`; drop the bucket if it empties.  (The source's
`unwrap_unchecked` on an empty bucket is undefined behaviour; well-formed
states have no empty buckets, and the model returns `none` there.) -/
def pop_free_block (a : StableMemoryAllocator) (size : Nat) :
    Option (FreeBlock × StableMemoryAllocator) :=
  match a.free_blocks.find? (fun e => size ≤ e.1) with
  | none => none
  | some (sz, ps) =>
    match ps.getLast? with
    | none => none
    | some p =>
      let rest := ps.dropLast
      let buckets :=
        if rest.isEmpty then assocRemove a.free_blocks sz
        else assocSet a.free_blocks sz rest
      some (⟨p, sz⟩, { a with free_blocks := buckets })

/-- `remove_free_block`: binary-search removal from the block's size
bucket.  (The source's `unreachable!` on a missing block is modelled as a
no-op on that bucket.) -/
def remove_free_block (a : StableMemoryAllocator) (b : FreeBlock) :
    StableMemoryAllocator :=
  match assocGet a.free_blocks b.size with
  | none => a
  | some ps =>
    let ps1 := removeOneNat ps b.ptr
    { a with free_blocks :=
        if ps1.isEmpty then assocRemove a.free_blocks b.size
        else assocSet a.free_blocks b.size ps1 }

/-- `grow`: claim the unclaimed tail of the grown memory, growing pages
when the tail is too small (or absent).  Returns the new tail as a single
free block; the first call also advances `max_ptr` from 0 to `MIN_PTR`.
The host's `stable::grow` (spec §6.1, `Result<previous_pages, OutOfMemory>`)
is modelled inline: stable memory is addressed by 64-bit offsets, so growth
past `2^64` bytes fails, and the allocator panics on `Err` (spec §7:
fatal), modelled as `none`. -/
def grow (w : AWorld) (size : Nat) : Option (FreeBlock × AWorld) :=
  let memoryGrown := m64 (w.pages * PAGE_SIZE_BYTES)
  let maxP := if w.sma.max_ptr = ALLOCATOR_PTR then MIN_PTR else w.sma.max_ptr
  if maxP < memoryGrown then
    let availableMemory := sub64 memoryGrown maxP
    if availableMemory < m64 (size + 16) then
      let pagesToGrow :=
        ceil_div (sub64 (m64 (size + 16)) availableMemory) PAGE_SIZE_BYTES
      if (w.pages + pagesToGrow) * PAGE_SIZE_BYTES < 18446744073709551616 then
        let newMax := m64 ((w.pages + pagesToGrow) * PAGE_SIZE_BYTES)
        some (FreeBlock.new_total_size maxP (sub64 newMax maxP),
          { w with pages := w.pages + pagesToGrow,
                   sma := { w.sma with max_ptr := newMax } })
      else none
    else
      some (FreeBlock.new_total_size maxP availableMemory,
        { w with sma := { w.sma with max_ptr := add64 maxP availableMemory } })
  else
    let pagesToGrow := ceil_div size PAGE_SIZE_BYTES
    if (w.pages + pagesToGrow) * PAGE_SIZE_BYTES < 18446744073709551616 then
      let newMax := m64 ((w.pages + pagesToGrow) * PAGE_SIZE_BYTES)
      some (FreeBlock.new_total_size maxP (sub64 newMax maxP),
        { w with pages := w.pages + pagesToGrow,
                 sma := { w.sma with max_ptr := newMax } })
    else none

/-- The second half of `allocate`: split the chosen block if it is big
enough (pushing the remainder back), book the block out of `free_size` and
flip it to allocated. -/
def allocate_finish (w1 : AWorld) (fb : FreeBlock) (sz : Nat) :
    SSlice × AWorld :=
  let (fb2, w2) :=
    if FreeBlock.can_split fb.size sz then
      let ((a, b), m1) := fb.split sz w1.mem
      (a, push_free_block { w1 with mem := m1 } b)
    else (fb, w1)
  let w3 := { w2 with sma := w2.sma.less_free_size fb2.get_total_size_bytes }
  let (s, m2) := fb2.to_allocated w3.mem
  (s, { w3 with mem := m2 })

/-- `allocate` (`none` = the fatal `OutOfMemory` abort inside `grow`):
pop a free block of sufficient size, or grow memory and book the new block
into both size counters; then split/claim it. -/
def allocate (w : AWorld) (size : Nat) : Option (SSlice × AWorld) :=
  let sz := pad_size size
  match pop_free_block w.sma sz with
  | some (fb, a1) => some (allocate_finish { w with sma := a1 } fb sz)
  | none =>
    (grow w sz).map (fun p =>
      allocate_finish
        { p.2 with sma := ((p.2.sma.more_available_size
            p.1.get_total_size_bytes).more_free_size p.1.get_total_size_bytes) }
        p.1 sz)

/-- `try_merge_with_neighbors`. -/
def try_merge_with_neighbors (w : AWorld) (fb : FreeBlock) :
    FreeBlock × AWorld :=
  let (fb1, w1) :=
    match fb.prev_neighbor_is_free w.mem with
    | some pb => (FreeBlock.merge pb fb,
        { w with sma := w.sma.remove_free_block pb })
    | none => (fb, w)
  match fb1.next_neighbor_is_free w1.mem w1.sma.max_ptr with
  | some nb => (FreeBlock.merge fb1 nb,
      { w1 with sma := w1.sma.remove_free_block nb })
  | none => (fb1, w1)

/-- `deallocate`. -/
def deallocate (w : AWorld) (s : SSlice) : AWorld :=
  let (fb, m1) := s.to_free_block w.mem
  let w1 := { w with
              mem := m1,
              sma := w.sma.more_free_size fb.get_total_size_bytes }
  let (fb2, w2) := try_merge_with_neighbors w1 fb
  push_free_block w2 fb2

/-- `try_reallocate_in_place`: grow in place by absorbing the next
neighbour if free and jointly large enough; `none` plays the `Err` role
(the caller keeps the original block). -/
def try_reallocate_in_place (w : AWorld) (fb : FreeBlock) (newSize : Nat) :
    Option FreeBlock × AWorld :=
  match fb.next_neighbor_is_free w.mem w.sma.max_ptr with
  | none => (none, w)
  | some nb =>
    let merged := FreeBlock.merged_size fb nb
    if merged < newSize then (none, w)
    else
      let w1 := { w with sma :=
        (w.sma.less_free_size nb.get_total_size_bytes).remove_free_block nb }
      let fb1 := FreeBlock.merge fb nb
      if FreeBlock.can_split merged newSize then
        let ((a, b), m1) := fb1.split newSize w1.mem
        let w2 := push_free_block
          { w1 with mem := m1,
                    sma := w1.sma.more_free_size b.get_total_size_bytes } b
        (some a, w2)
      else (some fb1, w1)

/-- `reallocate`.  Every path of the source returns the `Ok` variant
(`none` = the fatal `OutOfMemory` abort inside `allocate`). -/
def reallocate (w : AWorld) (s : SSlice) (newSize : Nat) :
    Option (Except SSlice SSlice × AWorld) :=
  let ns := pad_size newSize
  if ns ≤ s.size then some (Except.ok s, w)
  else
    let (fb, m1) := s.to_free_block w.mem
    let w1 := { w with mem := m1 }
    match try_reallocate_in_place w1 fb ns with
    | (some fb2, w2) =>
      let (s2, m2) := fb2.to_allocated w2.mem
      some (Except.ok s2, { w2 with mem := m2 })
    | (none, w2) =>
      let b := readBytes w2.mem s.ptr s.size
      let w3 := { w2 with sma := w2.sma.more_free_size fb.get_total_size_bytes }
      let (fb3, w4) := try_merge_with_neighbors w3 fb
      let w5 := push_free_block w4 fb3
      match allocate w5 ns with
      | none => none
      | some (newSlice, w6) =>
        some (Except.ok newSlice, { w6 with mem := writeBytes w6.mem newSlice.ptr b })

end StableMemoryAllocator

/-! ## Allocator serialization, modelled from the spec (§6.3): a
self-describing little-endian encoding of the size→blocks map, the
custom-data map and the three numeric fields, which "must round-trip under
equality"; the decoder ignores trailing bytes
(`candid_decode_one_allow_trailing`). -/

/-- Serialize the allocator struct. -/
def serializeSMA (a : StableMemoryAllocator) : List Nat :=
  le8 a.free_blocks.length ++
    a.free_blocks.flatMap (fun e => le8 e.1 ++ le8 e.2.length ++ e.2.flatMap le8) ++
    le8 a.custom_data_pointers.length ++
    a.custom_data_pointers.flatMap (fun e => le8 e.1 ++ le8 e.2) ++
    le8 a.free_size ++ le8 a.available_size ++ le8 a.max_ptr

/-- Parse one `u64`. -/
def parseU64 (l : List Nat) : Option (Nat × List Nat) :=
  if 8 ≤ l.length then some (fromLe8 (l.take 8), l.drop 8) else none

/-- Parse `n` pointers. -/
def parsePtrs : Nat → List Nat → Option (List Nat × List Nat)
  | 0, l => some ([], l)
  | n + 1, l => do
    let (p, l1) ← parseU64 l
    let (ps, l2) ← parsePtrs n l1
    pure (p :: ps, l2)

/-- Parse `n` size buckets. -/
def parseBuckets : Nat → List Nat → Option (List (Nat × List Nat) × List Nat)
  | 0, l => some ([], l)
  | n + 1, l => do
    let (sz, l1) ← parseU64 l
    let (cnt, l2) ← parseU64 l1
    let (ps, l3) ← parsePtrs cnt l2
    let (rest, l4) ← parseBuckets n l3
    pure ((sz, ps) :: rest, l4)

/-- Parse `n` custom-data entries. -/
def parseCustom : Nat → List Nat → Option (List (Nat × Nat) × List Nat)
  | 0, l => some ([], l)
  | n + 1, l => do
    let (k, l1) ← parseU64 l
    let (p, l2) ← parseU64 l1
    let (rest, l3) ← parseCustom n l2
    pure ((k, p) :: rest, l3)

/-- Deserialize the allocator struct, allowing trailing bytes. -/
def deserializeSMA (buf : List Nat) : Option StableMemoryAllocator := do
  let (nb, r1) ← parseU64 buf
  let (fbs, r2) ← parseBuckets nb r1
  let (nc, r3) ← parseU64 r2
  let (cs, r4) ← parseCustom nc r3
  let (fs, r5) ← parseU64 r4
  let (av, r6) ← parseU64 r5
  let (mp, _) ← parseU64 r6
  pure ⟨fbs, cs, fs, av, mp⟩

namespace StableMemoryAllocator

/-- `store`: encode once for sizing, allocate `len + 100` bytes, re-encode
(the allocator has mutated to serve that very allocation), write the
encoding into the slice and the slice pointer at offset 0. -/
def store (w : AWorld) : Option AWorld := do
  let buf1 := serializeSMA w.sma
  let (slice, w1) ← allocate w (buf1.length + 100)
  let buf2 := serializeSMA w1.sma
  let m2 := writeBytes w1.mem slice.ptr buf2
  pure { w1 with mem := writeU64 m2 0 slice.ptr }

/-- `retrieve`: read the root pointer, view the slice, decode the state and
immediately free the bootstrap slice. -/
def retrieve (m : Mem) (pages : Nat) : Option AWorld := do
  let p := readU64 m 0
  let slice ← SSlice.from_ptr m p
  let buf := readBytes m slice.ptr slice.size
  let sma ← deserializeSMA buf
  pure (deallocate ⟨sma, m, pages⟩ slice)

end StableMemoryAllocator

/-- All-zero stable memory (the host's cleared state). -/
def zeroMem : Mem := fun _ => 0

/-- A fresh world: the `Default` allocator over cleared memory with `p`
pre-grown pages. -/
def freshWorld (p : Nat) : AWorld := ⟨StableMemoryAllocator.default0, zeroMem, p⟩

/-- C6: evaluating the code at the failing input.  Starting from the fresh
allocator, `allocate(65512)` consumes the whole first page exactly; the
following `allocate(65536)` takes `grow`'s tail-exhausted branch, which
sizes the new pages for `size` without the 16 sentinel bytes, and the
returned slice has payload `65520 < pad_size 65536 = 65536` — less than
requested. -/
theorem c6_allocate_payload_below_request :
    ((StableMemoryAllocator.allocate (freshWorld 0) 65512).bind
        (fun r => (StableMemoryAllocator.allocate r.2 65536).map (fun r2 => (r.1, r2.1)))) =
      some (⟨16, 65512⟩, ⟨65544, 65520⟩) ∧
    65520 < StableMemoryAllocator.pad_size 65536 ∧ 65520 < 65536 := by
  refine ⟨by decide, by decide, by decide⟩

deriving instance DecidableEq for Except

/-- The C8 scenario: two adjacent 104-byte allocations; reallocating the
first to 200 bytes cannot grow in place (its neighbour is allocated), so
the data moves to a fresh slice at pointer 256 — and the result is still
the `Ok` variant, exactly as for the kept-in-place reallocation of the
second slice. -/
def c8Chain : Option (SSlice × Except SSlice SSlice × Except SSlice SSlice) := do
  let (s1, w1) ← StableMemoryAllocator.allocate (freshWorld 0) 100
  let (s2, w2) ← StableMemoryAllocator.allocate w1 100
  let (rMove, _) ← StableMemoryAllocator.reallocate w2 s1 200
  let (rKeep, _) ← StableMemoryAllocator.reallocate w2 s2 50
  pure (s1, rMove, rKeep)

/-- C8: evaluating the code at the failing input.  The moved reallocation
of the slice at pointer 16 returns `Ok` with the freshly allocated slice at
pointer 256 (the original pointer is invalidated), and the kept
reallocation also returns `Ok`; moreover `reallocate` returns the `Ok`
variant on every path, so the two-variant result never distinguishes
"new slice" from "kept old". -/
theorem c8_reallocate_ok_even_when_moved :
    c8Chain = some (⟨16, 104⟩, Except.ok ⟨256, 200⟩, Except.ok ⟨136, 104⟩) ∧
    (∀ (w : AWorld) (s : SSlice) (n : Nat) (r : Except SSlice SSlice) (w' : AWorld),
      StableMemoryAllocator.reallocate w s n = some (r, w') →
      ∃ s', r = Except.ok s') := by
  constructor
  · decide
  · intro w s n r w' h
    unfold StableMemoryAllocator.reallocate at h
    by_cases hfit : StableMemoryAllocator.pad_size n ≤ s.size
    · rw [if_pos hfit] at h
      simp only [Option.some_inj, Prod.mk.injEq] at h
      exact ⟨s, h.1.symm⟩
    · rw [if_neg hfit] at h
      split at h
      dsimp only at h
      split at h
      · simp only [Option.some_inj, Prod.mk.injEq] at h
        exact ⟨_, h.1.symm⟩
      · split at h
        · exact Option.noConfusion h
        · simp only [Option.some_inj, Prod.mk.injEq] at h
          exact ⟨_, h.1.symm⟩

/-- C8 witness: the universally quantified half of
`c8_reallocate_ok_even_when_moved` applied to a concrete fitting
reallocation. -/
theorem c8_reallocate_ok_even_when_moved_witness :
    ∃ s', (Except.ok (⟨16, 104⟩ : SSlice) : Except SSlice SSlice) = Except.ok s' :=
  c8_reallocate_ok_even_when_moved.2 (freshWorld 0) ⟨16, 104⟩ 50
    (Except.ok ⟨16, 104⟩) (freshWorld 0) rfl

/-! ## Accounting (C5): operation sequences and the size invariant -/

/-- One public allocator operation. -/
inductive AllocOp where
  | alloc (size : Nat)
  | dealloc (s : SSlice)
  | realloc (s : SSlice) (newSize : Nat)

/-- Run one operation (`none` = the fatal `OutOfMemory` abort). -/
def applyOp (w : AWorld) : AllocOp → Option AWorld
  | AllocOp.alloc sz => (StableMemoryAllocator.allocate w sz).map Prod.snd
  | AllocOp.dealloc s => some (StableMemoryAllocator.deallocate w s)
  | AllocOp.realloc s ns => (StableMemoryAllocator.reallocate w s ns).map Prod.snd

/-- Run a sequence of operations. -/
def applyOps (w : AWorld) (ops : List AllocOp) : Option AWorld :=
  ops.foldlM applyOp w

/-- A request size that does not wrap the `usize` size arithmetic
(padding the size and adding the two 8-byte sentinels stays below `2^64`). -/
def opSane : AllocOp → Prop
  | AllocOp.alloc sz => sz + 23 < 18446744073709551616
  | AllocOp.dealloc _ => True
  | AllocOp.realloc _ ns => ns + 23 < 18446744073709551616

/-- The accounting invariant, in force from the first growth on:
`max_ptr` sits at the end of the grown pages and `available_size` counts
everything past the root word. -/
def AccountInv (w : AWorld) : Prop :=
  1 ≤ w.pages ∧ w.pages * 65536 < 18446744073709551616 ∧
  w.sma.max_ptr = w.pages * 65536 ∧
  w.sma.available_size = w.pages * 65536 - 8 ∧
  w.sma.free_size < 18446744073709551616

theorem pad_size_spec (size : Nat) (h : size + 23 < 18446744073709551616) :
    16 ≤ StableMemoryAllocator.pad_size size ∧
    StableMemoryAllocator.pad_size size + 23 < 18446744073709551616 := by
  unfold StableMemoryAllocator.pad_size m64
  by_cases hs : size < 16
  · rw [if_pos hs]
    omega
  · rw [if_neg hs, Nat.mod_eq_of_lt (by omega)]
    omega

theorem grow_spec (w : AWorld) (sz : Nat) (fb : FreeBlock) (w' : AWorld)
    (hgrow : StableMemoryAllocator.grow w sz = some (fb, w'))
    (hsz : 16 ≤ sz ∧ sz + 16 < 18446744073709551616)
    (hpages : w.pages * 65536 < 18446744073709551616)
    (hpre : w.sma.max_ptr = 0 ∨
      (w.sma.max_ptr = w.pages * 65536 ∧ 1 ≤ w.pages)) :
    w'.sma.max_ptr = w'.pages * 65536 ∧ 1 ≤ w'.pages ∧
    w'.pages * 65536 < 18446744073709551616 ∧
    fb.get_total_size_bytes +
      (if w.sma.max_ptr = 0 then 8 else w.sma.max_ptr) = w'.pages * 65536 ∧
    w'.sma.free_size = w.sma.free_size ∧
    w'.sma.available_size = w.sma.available_size ∧
    w'.sma.free_blocks = w.sma.free_blocks ∧
    w'.mem = w.mem := by
  obtain ⟨hsz1, hsz2⟩ := hsz
  unfold StableMemoryAllocator.grow at hgrow
  simp only [ALLOCATOR_PTR, MIN_PTR, PAGE_SIZE_BYTES] at hgrow
  set M := (if w.sma.max_ptr = 0 then 8 else w.sma.max_ptr) with hM
  have hMor : (M = 8 ∧ w.sma.max_ptr = 0) ∨ (M = w.pages * 65536 ∧ 1 ≤ w.pages) := by
    by_cases hz : w.sma.max_ptr = 0
    · exact Or.inl ⟨by rw [hM, if_pos hz], hz⟩
    · rcases hpre with h0 | ⟨hmp, hp1⟩
      · exact absurd h0 hz
      · exact Or.inr ⟨by rw [hM, if_neg hz, hmp], hp1⟩
  have hmg : m64 (w.pages * 65536) = w.pages * 65536 := Nat.mod_eq_of_lt hpages
  have hms : m64 (sz + 16) = sz + 16 := Nat.mod_eq_of_lt hsz2
  rw [hmg, hms] at hgrow
  have hMb : M < 18446744073709551616 := by
    rcases hMor with ⟨h8, _⟩ | ⟨hmp, _⟩
    · omega
    · omega
  repeat' split at hgrow
  all_goals
    first
    | exact Option.noConfusion hgrow
    | (simp only [Option.some_inj, Prod.mk.injEq] at hgrow
       obtain ⟨hfb, hw⟩ := hgrow
       subst hw
       rw [← hfb]
       simp only [FreeBlock.get_total_size_bytes, FreeBlock.new_total_size,
         sub64, add64, m64, ceil_div] at *
       refine ⟨?_, ?_, ?_, ?_, by trivial, by trivial, by trivial, by trivial⟩ <;> omega)

theorem assocGet_assocSet_self {α : Type} (l : List (Nat × α)) (k : Nat) (v : α) :
    assocGet (assocSet l k v) k = some v := by
  induction l with
  | nil => simp [assocSet, assocGet, List.find?]
  | cons e rest ih =>
    obtain ⟨k', v'⟩ := e
    by_cases h1 : k < k'
    · simp [assocSet, h1, assocGet, List.find?]
    · by_cases h2 : k = k'
      · simp [assocSet, h1, h2, assocGet, List.find?]
      · have hne : (k' == k) = false := by simp [Ne.symm h2]
        simp only [assocSet, if_neg h1, if_neg h2]
        simpa [assocGet, List.find?, hne] using ih

theorem assocGet_assocSet_other {α : Type} (l : List (Nat × α)) (k j : Nat)
    (v : α) (h : j ≠ k) : assocGet (assocSet l k v) j = assocGet l j := by
  have hne : (k == j) = false := by simp [Ne.symm h]
  induction l with
  | nil => simp [assocSet, assocGet, List.find?, hne]
  | cons e rest ih =>
    obtain ⟨k', v'⟩ := e
    by_cases h1 : k < k'
    · simp [assocSet, h1, assocGet, List.find?, hne]
    · by_cases h2 : k = k'
      · subst h2
        simp [assocSet, h1, assocGet, List.find?, hne]
      · simp only [assocSet, if_neg h1, if_neg h2]
        by_cases h3 : k' = j
        · simp [assocGet, List.find?, h3]
        · have h3' : (k' == j) = false := by simp [h3]
          simpa [assocGet, List.find?, h3'] using ih

/-- C10: `set_custom_data_ptr(i, p)` returns the pointer previously stored
in slot `i` (`None` if unset); afterwards `get_custom_data_ptr(i)` yields
`Some p`, every other custom slot reads as before, and the free lists and
the three byte counters and `max_ptr` are unchanged. -/
theorem c10_set_custom_data_ptr_frame (a : StableMemoryAllocator) (idx ptr : Nat) :
    (a.set_custom_data_ptr idx ptr).1 = a.get_custom_data_ptr idx ∧
    ((a.set_custom_data_ptr idx ptr).2).get_custom_data_ptr idx = some ptr ∧
    (∀ j, j ≠ idx →
      ((a.set_custom_data_ptr idx ptr).2).get_custom_data_ptr j =
        a.get_custom_data_ptr j) ∧
    ((a.set_custom_data_ptr idx ptr).2).free_blocks = a.free_blocks ∧
    ((a.set_custom_data_ptr idx ptr).2).free_size = a.free_size ∧
    ((a.set_custom_data_ptr idx ptr).2).available_size = a.available_size ∧
    ((a.set_custom_data_ptr idx ptr).2).max_ptr = a.max_ptr := by
  refine ⟨rfl, ?_, ?_, rfl, rfl, rfl, rfl⟩
  · exact assocGet_assocSet_self a.custom_data_pointers idx ptr
  · intro j hj
    exact assocGet_assocSet_other a.custom_data_pointers idx j ptr hj

/-- C10 witness: `c10_set_custom_data_ptr_frame` at a concrete allocator
holding one custom pointer, with the frame conclusion read off at another
slot. -/
theorem c10_set_custom_data_ptr_frame_witness :
    ((⟨[], [(2, 7)], 1, 2, 3⟩ : StableMemoryAllocator).set_custom_data_ptr 2 9).1 =
      (⟨[], [(2, 7)], 1, 2, 3⟩ : StableMemoryAllocator).get_custom_data_ptr 2 ∧
    (((⟨[], [(2, 7)], 1, 2, 3⟩ : StableMemoryAllocator).set_custom_data_ptr 2 9).2).get_custom_data_ptr 2 = some 9 ∧
    (((⟨[], [(2, 7)], 1, 2, 3⟩ : StableMemoryAllocator).set_custom_data_ptr 2 9).2).get_custom_data_ptr 0 =
      (⟨[], [(2, 7)], 1, 2, 3⟩ : StableMemoryAllocator).get_custom_data_ptr 0 :=
  ⟨(c10_set_custom_data_ptr_frame ⟨[], [(2, 7)], 1, 2, 3⟩ 2 9).1,
   (c10_set_custom_data_ptr_frame ⟨[], [(2, 7)], 1, 2, 3⟩ 2 9).2.1,
   (c10_set_custom_data_ptr_frame ⟨[], [(2, 7)], 1, 2, 3⟩ 2 9).2.2.1 0 (by decide)⟩

/-- C9 witness: the zeroed-region half of `c9_new_none_iff_and_zeroed`
instantiated at `K::SIZE = V::SIZE = 8`, `capacity = 7`. -/
theorem c9_new_none_iff_and_zeroed_witness :
    ∃ r, newNodeBytes 8 8 7 = some r ∧
      r.length = (1 + 8 + 8) * 7 + keys_offset 7 ∧
      readU64L r 0 = 0 ∧ readU64L r 8 = 7 ∧ readU64L r 16 = 0 ∧
      (∀ i, i < 7 → readBytesL r (24 + 32 * i) 32 = EMPTY_SHA256) ∧
      (∀ i, i < 7 → readBytesL r (24 + 32 * 7 + 32 * i) 32 = EMPTY_SHA256) ∧
      (∀ i, i < 7 → r.getD (keys_offset 7 + (1 + 8) * i) 1 = 0) :=
  (c9_new_none_iff_and_zeroed 8 8 7).2 (by decide)

end Spec2Proof

namespace Spec2Proof

theorem sub64_lt (a b : Nat) : sub64 a b < 18446744073709551616 :=
  Nat.mod_lt _ (by norm_num)

theorem add64_lt (a b : Nat) : add64 a b < 18446744073709551616 :=
  Nat.mod_lt _ (by norm_num)

theorem pop_free_block_fields (a : StableMemoryAllocator) (sz : Nat)
    (fb : FreeBlock) (a1 : StableMemoryAllocator)
    (h : StableMemoryAllocator.pop_free_block a sz = some (fb, a1)) :
    a1.available_size = a.available_size ∧ a1.max_ptr = a.max_ptr ∧
    a1.free_size = a.free_size ∧
    a1.custom_data_pointers = a.custom_data_pointers := by
  unfold StableMemoryAllocator.pop_free_block at h
  repeat' split at h
  all_goals
    first
    | exact Option.noConfusion h
    | (simp only [Option.some_inj, Prod.mk.injEq] at h
       obtain ⟨h1, hw⟩ := h
       subst hw
       exact ⟨rfl, rfl, rfl, rfl⟩)

theorem allocate_finish_fields (w1 : AWorld) (fb : FreeBlock) (sz : Nat) :
    (StableMemoryAllocator.allocate_finish w1 fb sz).2.sma.available_size =
      w1.sma.available_size ∧
    (StableMemoryAllocator.allocate_finish w1 fb sz).2.sma.max_ptr =
      w1.sma.max_ptr ∧
    (StableMemoryAllocator.allocate_finish w1 fb sz).2.pages = w1.pages ∧
    (StableMemoryAllocator.allocate_finish w1 fb sz).2.sma.free_size <
      18446744073709551616 := by
  unfold StableMemoryAllocator.allocate_finish
  by_cases hc : FreeBlock.can_split fb.size sz
  · rw [if_pos hc]
    exact ⟨rfl, rfl, rfl, sub64_lt _ _⟩
  · rw [if_neg hc]
    exact ⟨rfl, rfl, rfl, sub64_lt _ _⟩

theorem allocate_inv (w : AWorld) (size : Nat) (s : SSlice)
    (w' : AWorld) (h : StableMemoryAllocator.allocate w size = some (s, w'))
    (hsz : size + 23 < 18446744073709551616)
    (hpre : AccountInv w ∨ (w.sma = StableMemoryAllocator.default0 ∧
      w.pages * 65536 < 18446744073709551616)) :
    AccountInv w' := by
  obtain ⟨hp1, hp2⟩ := pad_size_spec size hsz
  unfold StableMemoryAllocator.allocate at h
  dsimp only at h
  rcases hpop : StableMemoryAllocator.pop_free_block w.sma
      (StableMemoryAllocator.pad_size size) with _ | ⟨fb, a1⟩
  · rw [hpop] at h
    simp only [Option.map_eq_some'] at h
    obtain ⟨⟨gb, w1⟩, hg, hfin⟩ := h
    have hpages : w.pages * 65536 < 18446744073709551616 := by
      rcases hpre with ⟨_, hb, _⟩ | ⟨_, hb⟩
      · exact hb
      · exact hb
    have hgpre : w.sma.max_ptr = 0 ∨
        (w.sma.max_ptr = w.pages * 65536 ∧ 1 ≤ w.pages) := by
      rcases hpre with ⟨hpg, _, hmx, _⟩ | ⟨hd, _⟩
      · exact Or.inr ⟨hmx, hpg⟩
      · rw [hd]
        exact Or.inl rfl
    obtain ⟨g1, g2, g3, g4, g5, g6, g7, g8⟩ :=
      grow_spec w (StableMemoryAllocator.pad_size size) gb w1 hg
        ⟨hp1, by omega⟩ hpages hgpre
    obtain ⟨hf1, hf2, hf3, hf4⟩ := allocate_finish_fields
      { w1 with sma := ((w1.sma.more_available_size
          gb.get_total_size_bytes).more_free_size gb.get_total_size_bytes) }
      gb (StableMemoryAllocator.pad_size size)
    have hw' : w' = (StableMemoryAllocator.allocate_finish
        { w1 with sma := ((w1.sma.more_available_size
            gb.get_total_size_bytes).more_free_size gb.get_total_size_bytes) }
        gb (StableMemoryAllocator.pad_size size)).2 := by
      rw [hfin]
    rw [hw']
    refine ⟨?_, ?_, ?_, ?_, hf4⟩
    · rw [hf3]
      show 1 ≤ w1.pages
      omega
    · rw [hf3]
      exact g3
    · rw [hf2, hf3]
      exact g1
    · rw [hf1, hf3]
      show add64 w1.sma.available_size gb.get_total_size_bytes =
        w1.pages * 65536 - 8
      rw [g6]
      rcases hpre with ⟨hpg, _, hmx, hav, _⟩ | ⟨hd, _⟩
      · have hnz : ¬ w.sma.max_ptr = 0 := by
          rw [hmx]
          omega
        rw [if_neg hnz, hmx] at g4
        rw [hav]
        unfold add64 m64
        omega
      · rw [if_pos (by rw [hd]; rfl)] at g4
        rw [show w.sma.available_size = 0 by rw [hd]; rfl]
        unfold add64 m64
        omega
  · rw [hpop] at h
    simp only [Option.some_inj] at h
    have hinv : AccountInv w := by
      rcases hpre with hi | ⟨hd, _⟩
      · exact hi
      · rw [hd] at hpop
        exact Option.noConfusion hpop
    obtain ⟨hpg, hpb, hmx, hav, hfr⟩ := hinv
    obtain ⟨p1, p2, p3, p4⟩ := pop_free_block_fields w.sma _ fb a1 hpop
    obtain ⟨hf1, hf2, hf3, hf4⟩ := allocate_finish_fields
      { w with sma := a1 } fb (StableMemoryAllocator.pad_size size)
    have hw' : w' = (StableMemoryAllocator.allocate_finish
        { w with sma := a1 } fb (StableMemoryAllocator.pad_size size)).2 := by
      rw [h]
    rw [hw']
    refine ⟨?_, ?_, ?_, ?_, hf4⟩
    · rw [hf3]
      exact hpg
    · rw [hf3]
      exact hpb
    · rw [hf2, hf3]
      show a1.max_ptr = w.pages * 65536
      rw [p2, hmx]
    · rw [hf1, hf3]
      show a1.available_size = w.pages * 65536 - 8
      rw [p1, hav]

end Spec2Proof

namespace Spec2Proof

theorem remove_free_block_fields (a : StableMemoryAllocator) (b : FreeBlock) :
    (a.remove_free_block b).available_size = a.available_size ∧
    (a.remove_free_block b).max_ptr = a.max_ptr ∧
    (a.remove_free_block b).free_size = a.free_size ∧
    (a.remove_free_block b).custom_data_pointers = a.custom_data_pointers := by
  unfold StableMemoryAllocator.remove_free_block
  split
  · exact ⟨rfl, rfl, rfl, rfl⟩
  · exact ⟨rfl, rfl, rfl, rfl⟩

theorem push_free_block_fields (w : AWorld) (b : FreeBlock) :
    (StableMemoryAllocator.push_free_block w b).sma.available_size =
      w.sma.available_size ∧
    (StableMemoryAllocator.push_free_block w b).sma.max_ptr = w.sma.max_ptr ∧
    (StableMemoryAllocator.push_free_block w b).sma.free_size =
      w.sma.free_size ∧
    (StableMemoryAllocator.push_free_block w b).pages = w.pages :=
  ⟨rfl, rfl, rfl, rfl⟩

theorem try_merge_fields (w : AWorld) (fb : FreeBlock) :
    (StableMemoryAllocator.try_merge_with_neighbors w fb).2.sma.available_size =
      w.sma.available_size ∧
    (StableMemoryAllocator.try_merge_with_neighbors w fb).2.sma.max_ptr =
      w.sma.max_ptr ∧
    (StableMemoryAllocator.try_merge_with_neighbors w fb).2.sma.free_size =
      w.sma.free_size ∧
    (StableMemoryAllocator.try_merge_with_neighbors w fb).2.pages = w.pages ∧
    (StableMemoryAllocator.try_merge_with_neighbors w fb).2.mem = w.mem := by
  unfold StableMemoryAllocator.try_merge_with_neighbors
  rcases hprev : fb.prev_neighbor_is_free w.mem with _ | pb <;> dsimp only
  · rcases hnext : fb.next_neighbor_is_free w.mem w.sma.max_ptr with _ | nb <;>
      dsimp only
    · exact ⟨rfl, rfl, rfl, rfl, rfl⟩
    · exact ⟨(remove_free_block_fields _ _).1,
        (remove_free_block_fields _ _).2.1,
        (remove_free_block_fields _ _).2.2.1, rfl, rfl⟩
  · rcases hnext : (pb.merge fb).next_neighbor_is_free w.mem
        (w.sma.remove_free_block pb).max_ptr with _ | nb <;> dsimp only
    · exact ⟨(remove_free_block_fields _ _).1,
        (remove_free_block_fields _ _).2.1,
        (remove_free_block_fields _ _).2.2.1, rfl, rfl⟩
    · refine ⟨?_, ?_, ?_, rfl, rfl⟩
      · rw [(remove_free_block_fields (w.sma.remove_free_block pb) nb).1]
        exact (remove_free_block_fields _ _).1
      · rw [(remove_free_block_fields (w.sma.remove_free_block pb) nb).2.1]
        exact (remove_free_block_fields _ _).2.1
      · rw [(remove_free_block_fields (w.sma.remove_free_block pb) nb).2.2.1]
        exact (remove_free_block_fields _ _).2.2.1

theorem deallocate_inv (w : AWorld) (s : SSlice) (hinv : AccountInv w) :
    AccountInv (StableMemoryAllocator.deallocate w s) := by
  obtain ⟨hpg, hpb, hmx, hav, hfr⟩ := hinv
  unfold StableMemoryAllocator.deallocate
  have hm := try_merge_fields
    { w with
      mem := (s.to_free_block w.mem).2,
      sma := w.sma.more_free_size (s.to_free_block w.mem).1.get_total_size_bytes }
    (s.to_free_block w.mem).1
  obtain ⟨m1, m2, m3, m4, m5⟩ := hm
  have hp := push_free_block_fields
    (StableMemoryAllocator.try_merge_with_neighbors
      { w with
        mem := (s.to_free_block w.mem).2,
        sma := w.sma.more_free_size (s.to_free_block w.mem).1.get_total_size_bytes }
      (s.to_free_block w.mem).1).2
    (StableMemoryAllocator.try_merge_with_neighbors
      { w with
        mem := (s.to_free_block w.mem).2,
        sma := w.sma.more_free_size (s.to_free_block w.mem).1.get_total_size_bytes }
      (s.to_free_block w.mem).1).1
  obtain ⟨q1, q2, q3, q4⟩ := hp
  refine ⟨?_, ?_, ?_, ?_, ?_⟩
  · rw [q4, m4]
    exact hpg
  · rw [q4, m4]
    exact hpb
  · rw [q2, m2, q4, m4]
    exact hmx
  · rw [q1, m1, q4, m4]
    exact hav
  · rw [q3, m3]
    exact add64_lt _ _

theorem try_realloc_fields (w : AWorld) (fb : FreeBlock) (ns : Nat) :
    (StableMemoryAllocator.try_reallocate_in_place w fb ns).2.sma.available_size =
      w.sma.available_size ∧
    (StableMemoryAllocator.try_reallocate_in_place w fb ns).2.sma.max_ptr =
      w.sma.max_ptr ∧
    (StableMemoryAllocator.try_reallocate_in_place w fb ns).2.pages = w.pages ∧
    ((StableMemoryAllocator.try_reallocate_in_place w fb ns).2.sma.free_size =
        w.sma.free_size ∨
      (StableMemoryAllocator.try_reallocate_in_place w fb ns).2.sma.free_size <
        18446744073709551616) := by
  unfold StableMemoryAllocator.try_reallocate_in_place
  rcases hnb : fb.next_neighbor_is_free w.mem w.sma.max_ptr with _ | nb <;>
    dsimp only
  · exact ⟨rfl, rfl, rfl, Or.inl rfl⟩
  · by_cases hlt : fb.merged_size nb < ns
    · rw [if_pos hlt]
      exact ⟨rfl, rfl, rfl, Or.inl rfl⟩
    · rw [if_neg hlt]
      by_cases hcs : FreeBlock.can_split (fb.merged_size nb) ns = true
      · rw [if_pos hcs]
        unfold FreeBlock.split
        refine ⟨?_, ?_, rfl, Or.inr ?_⟩
        · show ((w.sma.less_free_size nb.get_total_size_bytes).remove_free_block
            nb).available_size = w.sma.available_size
          rw [(remove_free_block_fields _ _).1]
          rfl
        · show ((w.sma.less_free_size nb.get_total_size_bytes).remove_free_block
            nb).max_ptr = w.sma.max_ptr
          rw [(remove_free_block_fields _ _).2.1]
          rfl
        · exact add64_lt _ _
      · rw [if_neg hcs]
        refine ⟨?_, ?_, rfl, Or.inr ?_⟩
        · show ((w.sma.less_free_size nb.get_total_size_bytes).remove_free_block
            nb).available_size = w.sma.available_size
          rw [(remove_free_block_fields _ _).1]
          rfl
        · show ((w.sma.less_free_size nb.get_total_size_bytes).remove_free_block
            nb).max_ptr = w.sma.max_ptr
          rw [(remove_free_block_fields _ _).2.1]
          rfl
        · show ((w.sma.less_free_size nb.get_total_size_bytes).remove_free_block
            nb).free_size < 18446744073709551616
          rw [(remove_free_block_fields _ _).2.2.1]
          exact sub64_lt _ _

end Spec2Proof

namespace Spec2Proof

theorem reallocate_inv (w : AWorld) (s : SSlice) (ns : Nat)
    (r : Except SSlice SSlice) (w' : AWorld)
    (h : StableMemoryAllocator.reallocate w s ns = some (r, w'))
    (hsz : ns + 23 < 18446744073709551616) (hinv : AccountInv w) :
    AccountInv w' := by
  unfold StableMemoryAllocator.reallocate at h
  by_cases hfit : StableMemoryAllocator.pad_size ns ≤ s.size
  · rw [if_pos hfit] at h
    simp only [Option.some_inj, Prod.mk.injEq] at h
    rw [← h.2]
    exact hinv
  · rw [if_neg hfit] at h
    rcases htf : s.to_free_block w.mem with ⟨fb, m1⟩
    rw [htf] at h
    dsimp only at h
    rcases hip : StableMemoryAllocator.try_reallocate_in_place
        { w with mem := m1 } fb (StableMemoryAllocator.pad_size ns)
      with ⟨ofb, w2⟩
    rw [hip] at h
    obtain ⟨t1, t2, t3, t4⟩ := try_realloc_fields { w with mem := m1 } fb
      (StableMemoryAllocator.pad_size ns)
    rw [hip] at t1 t2 t3 t4
    dsimp only at t1 t2 t3 t4
    obtain ⟨hpg, hpb, hmx, hav, hfr⟩ := hinv
    have hinv2 : AccountInv w2 := by
      refine ⟨?_, ?_, ?_, ?_, ?_⟩
      · rw [t3]
        exact hpg
      · rw [t3]
        exact hpb
      · rw [t2, t3]
        exact hmx
      · rw [t1, t3]
        exact hav
      · rcases t4 with he | hlt
        · rw [he]
          exact hfr
        · exact hlt
    rcases ofb with _ | fb2
    · dsimp only at h
      rcases htm : StableMemoryAllocator.try_merge_with_neighbors
          { w2 with sma := w2.sma.more_free_size fb.get_total_size_bytes } fb
        with ⟨fb3, w4⟩
      rw [htm] at h
      dsimp only at h
      rcases hal : StableMemoryAllocator.allocate
          (StableMemoryAllocator.push_free_block w4 fb3)
          (StableMemoryAllocator.pad_size ns) with _ | p
      · rw [hal] at h
        exact Option.noConfusion h
      · rcases p with ⟨ns6, w6⟩
        rw [hal] at h
        simp only [Option.some_inj, Prod.mk.injEq] at h
        have hW5 : AccountInv (StableMemoryAllocator.push_free_block w4 fb3) := by
          obtain ⟨i1, i2, i3, i4, i5⟩ := hinv2
          obtain ⟨n1, n2, n3, n4, n5⟩ := try_merge_fields
            { w2 with sma := w2.sma.more_free_size fb.get_total_size_bytes } fb
          rw [htm] at n1 n2 n3 n4 n5
          dsimp only at n1 n2 n3 n4 n5
          obtain ⟨q1, q2, q3, q4⟩ := push_free_block_fields w4 fb3
          refine ⟨?_, ?_, ?_, ?_, ?_⟩
          · rw [q4, n4]
            exact i1
          · rw [q4, n4]
            exact i2
          · rw [q2, n2, q4, n4]
            exact i3
          · rw [q1, n1, q4, n4]
            exact i4
          · rw [q3, n3]
            exact add64_lt _ _
        have h6 := allocate_inv _ (StableMemoryAllocator.pad_size ns) ns6 w6 hal
          (pad_size_spec ns hsz).2 (Or.inl hW5)
        rw [← h.2]
        exact h6
    · dsimp only at h
      rcases hta : fb2.to_allocated w2.mem with ⟨s2, m2⟩
      rw [hta] at h
      dsimp only at h
      simp only [Option.some_inj, Prod.mk.injEq] at h
      rw [← h.2]
      exact hinv2

theorem applyOp_inv (w : AWorld) (op : AllocOp) (w' : AWorld)
    (h : applyOp w op = some w') (hs : opSane op) (hinv : AccountInv w) :
    AccountInv w' := by
  cases op with
  | alloc sz =>
    simp only [applyOp, Option.map_eq_some'] at h
    obtain ⟨⟨s, w1⟩, ha, hw⟩ := h
    rw [← hw]
    exact allocate_inv w sz s w1 ha hs (Or.inl hinv)
  | dealloc s =>
    simp only [applyOp, Option.some_inj] at h
    rw [← h]
    exact deallocate_inv w s hinv
  | realloc s nsz =>
    simp only [applyOp, Option.map_eq_some'] at h
    obtain ⟨⟨r, w1⟩, ha, hw⟩ := h
    rw [← hw]
    exact reallocate_inv w s nsz r w1 ha hs hinv

theorem applyOps_inv (ops : List AllocOp) :
    ∀ w w', applyOps w ops = some w' → (∀ op ∈ ops, opSane op) →
      AccountInv w → AccountInv w' := by
  induction ops with
  | nil =>
    intro w w' h _ hi
    simp only [applyOps, List.foldlM_nil] at h
    exact Option.some_inj.mp h ▸ hi
  | cons op rest ih =>
    intro w w' h hs hi
    simp only [applyOps, List.foldlM_cons] at h
    rcases hop : applyOp w op with _ | w1
    · rw [hop] at h
      exact Option.noConfusion h
    · rw [hop] at h
      exact ih w1 w' h (fun o hm => hs o (List.mem_cons_of_mem op hm))
        (applyOp_inv w op w1 hop (hs op (List.mem_cons_self op rest)) hi)

end Spec2Proof

namespace Spec2Proof

/-- The world after allocating 100 bytes on one fresh page and freeing the
returned slice again. -/
def c5WitnessWorld : AWorld :=
  (((StableMemoryAllocator.allocate (freshWorld 1) 100).map Prod.snd).bind
    (fun w1 => applyOps w1 [AllocOp.dealloc ⟨16, 104⟩])).getD (freshWorld 0)

/-- C5: accounting invariant, corrected.  The claim as stated fails before
the first growth (see the counterexample); after a first successful
`allocate` from the default allocator, every further sequence of
allocate/reallocate/deallocate operations with sane sizes preserves
`allocated = available - free` (that is `get_allocated_size`'s `u64`
subtraction), `available = free + allocated` under `u64` addition, and
`available = pages * 65536 - 8`. -/
theorem c5_accounting_after_first_growth (p0 size : Nat) (ops : List AllocOp)
    (w' : AWorld)
    (hp0 : p0 * 65536 < 18446744073709551616)
    (hsize : size + 23 < 18446744073709551616)
    (hops : ∀ op ∈ ops, opSane op)
    (h : ((StableMemoryAllocator.allocate (freshWorld p0) size).map Prod.snd).bind
        (fun w1 => applyOps w1 ops) = some w') :
    StableMemoryAllocator.get_allocated_size w'.sma =
      sub64 (StableMemoryAllocator.get_available_size w'.sma)
        (StableMemoryAllocator.get_free_size w'.sma) ∧
    add64 (StableMemoryAllocator.get_free_size w'.sma)
        (StableMemoryAllocator.get_allocated_size w'.sma) =
      StableMemoryAllocator.get_available_size w'.sma ∧
    StableMemoryAllocator.get_available_size w'.sma = w'.pages * 65536 - 8 := by
  rcases ha : StableMemoryAllocator.allocate (freshWorld p0) size with _ | p
  · rw [ha] at h
    simp only [Option.map_none', Option.none_bind] at h
    exact Option.noConfusion h
  · rcases p with ⟨s1, w1⟩
    rw [ha] at h
    simp only [Option.map_some', Option.some_bind] at h
    have h1 : AccountInv w1 :=
      allocate_inv (freshWorld p0) size s1 w1 ha hsize (Or.inr ⟨rfl, hp0⟩)
    obtain ⟨g1, g2, g3, g4, g5⟩ := applyOps_inv ops w1 w' h hops h1
    refine ⟨rfl, ?_, g4⟩
    unfold StableMemoryAllocator.get_available_size
      StableMemoryAllocator.get_free_size
      StableMemoryAllocator.get_allocated_size add64 sub64 m64
    omega

/-- C5 counterexample: the claim quantifies over every sequence of
operations from the default allocator, including the empty one, but the
default allocator over a single pre-grown page reports 0 available bytes
while `size_pages * PAGE_SIZE - MIN_PTR = 65528`. -/
theorem c5_fresh_default_counterexample :
    applyOps (freshWorld 1) [] = some (freshWorld 1) ∧
    StableMemoryAllocator.get_available_size (freshWorld 1).sma = 0 ∧
    (freshWorld 1).pages * 65536 - 8 = 65528 ∧
    StableMemoryAllocator.get_available_size (freshWorld 1).sma ≠
      (freshWorld 1).pages * 65536 - 8 :=
  ⟨rfl, rfl, rfl, by decide⟩

/-- C5 witness. -/
theorem c5_accounting_after_first_growth_witness :
    StableMemoryAllocator.get_allocated_size c5WitnessWorld.sma =
      sub64 (StableMemoryAllocator.get_available_size c5WitnessWorld.sma)
        (StableMemoryAllocator.get_free_size c5WitnessWorld.sma) ∧
    add64 (StableMemoryAllocator.get_free_size c5WitnessWorld.sma)
        (StableMemoryAllocator.get_allocated_size c5WitnessWorld.sma) =
      StableMemoryAllocator.get_available_size c5WitnessWorld.sma ∧
    StableMemoryAllocator.get_available_size c5WitnessWorld.sma =
      c5WitnessWorld.pages * 65536 - 8 :=
  c5_accounting_after_first_growth 1 100 [AllocOp.dealloc ⟨16, 104⟩]
    c5WitnessWorld (by decide) (by decide)
    (by
      intro op hm
      rcases List.mem_singleton.mp hm with rfl
      exact True.intro)
    rfl

end Spec2Proof

namespace Spec2Proof

namespace SCertifiedHashMapNode

variable {K V : Type} [DecidableEq K] [Inhabited V]

theorem insertLoop_full_error (hashKey : K → Nat) (n : SCertifiedHashMapNode K V)
    (key : K) (val : V) (es : Digest) (cap : Nat)
    (habs : ∀ idx, idx < cap → n.slots.getD idx none ≠ some key)
    (hfull : is_full n.len cap = true) :
    ∀ fuel i, i < cap →
      insertLoop hashKey fuel n key val es i cap = (Except.error (key, val), n) := by
  intro fuel
  induction fuel with
  | zero =>
    intro i _
    rfl
  | succ fuel ih =>
    intro i hi
    unfold insertLoop
    rcases hs : n.slots.getD i none with _ | pk
    · dsimp only
      rw [hfull]
      rw [if_pos rfl]
    · dsimp only
      have hne : pk ≠ key := fun he => habs i hi (hs.trans (by rw [he]))
      rw [if_neg hne]
      exact ih ((i + 1) % cap) (Nat.mod_lt _ (by omega))

theorem findLoop_insertLoop (hashKey : K → Nat) (n : SCertifiedHashMapNode K V)
    (key : K) (val : V) (es : Digest) (cap : Nat) :
    ∀ fuel i j k, findLoop fuel n key i cap = some (j, k) →
      ∃ root n3, insertLoop hashKey fuel n key val es i cap =
        (Except.ok (some (n.readValAt j), false, j, root), n3) := by
  intro fuel
  induction fuel with
  | zero =>
    intro i j k h
    exact Option.noConfusion h
  | succ fuel ih =>
    intro i j k h
    unfold findLoop at h
    unfold insertLoop
    rcases hs : n.slots.getD i none with _ | pk
    · rw [hs] at h
      exact Option.noConfusion h
    · rw [hs] at h
      dsimp only at h ⊢
      by_cases he : pk = key
      · rw [if_pos he] at h ⊢
        simp only [Option.some_inj, Prod.mk.injEq] at h
        obtain ⟨hj, hk⟩ := h
        subst hj
        exact ⟨_, _, rfl⟩
      · rw [if_neg he] at h ⊢
        exact ih ((i + 1) % cap) j k h

end SCertifiedHashMapNode

end Spec2Proof

namespace Spec2Proof

/-- A concrete capacity-4 node at its load cap (3 entries, identity hash,
each key in its home slot). -/
def c7Node : SCertifiedHashMapNode Nat Nat :=
  { len := 3
    slots := [none, some 1, some 2, some 3]
    vals := [0, 10, 20, 30]
    entryH := List.replicate 4 EMPTY_SHA256
    nodeH := List.replicate 4 EMPTY_SHA256 }

/-- C7: insert at the load cap.  If the node holds exactly
`loadCap(C)` entries and the key sits in no slot, `insert` returns the
`Full` variant carrying the original `(key, value)` pair back and leaves
the node — length, slots, values and both hash arrays — completely
unchanged; and whenever `find_inner_idx` locates the key (an update),
`insert` succeeds, returning the previous value, `inserted = false` and
the found slot. -/
theorem c7_insert_at_load_cap {K V : Type} [DecidableEq K] [Inhabited V]
    (kb : K → List Nat) (vb : V → List Nat)
    (hashKey : K → Nat) (n : SCertifiedHashMapNode K V) (key : K) (val : V)
    (cap : Nat) :
    (0 < cap → n.len = SCertifiedHashMapNode.loadCap cap →
      (∀ idx, idx < cap → n.slots.getD idx none ≠ some key) →
      SCertifiedHashMapNode.insert kb vb hashKey n key val cap =
        (Except.error (key, val), n)) ∧
    (∀ i k, SCertifiedHashMapNode.findInnerIdx hashKey n key cap = some (i, k) →
      ∃ root n3, SCertifiedHashMapNode.insert kb vb hashKey n key val cap =
        (Except.ok (some (n.readValAt i), false, i, root), n3)) := by
  constructor
  · intro hcap hlen habs
    have hfull : SCertifiedHashMapNode.is_full n.len cap = true := by
      rw [hlen]
      unfold SCertifiedHashMapNode.is_full SCertifiedHashMapNode.loadCap
      split <;> exact beq_self_eq_true _
    exact SCertifiedHashMapNode.insertLoop_full_error hashKey n key val _ cap
      habs hfull cap _ (Nat.mod_lt _ hcap)
  · intro i k h
    exact SCertifiedHashMapNode.findLoop_insertLoop hashKey n key val _ cap
      cap _ i k h

/-- C7 witness: at `c7Node`, inserting the absent key 5 returns `Full`
with `(5, 50)` and the untouched node, and inserting the present key 2
succeeds as an update returning the prior value 20 at slot 2. -/
theorem c7_insert_at_load_cap_witness :
    (SCertifiedHashMapNode.insert le8 le8 (fun k => k) c7Node 5 50 4 =
      (Except.error (5, 50), c7Node)) ∧
    (∃ root n3, SCertifiedHashMapNode.insert le8 le8 (fun k => k) c7Node 2 99 4 =
      (Except.ok (some (c7Node.readValAt 2), false, 2, root), n3)) :=
  ⟨(c7_insert_at_load_cap le8 le8 (fun k => k) c7Node 5 50 4).1
      (by decide) (by decide) (by decide),
   (c7_insert_at_load_cap le8 le8 (fun k => k) c7Node 2 99 4).2 2 2 (by decide)⟩

end Spec2Proof

namespace Spec2Proof

/-! ## Cyclic-index arithmetic for the open-addressing proofs.  Distances
and steps on `Z/cap` are written with explicit bounded subtraction so that
every fact is linear arithmetic. -/

/-- Cyclic distance from `a` to `b` on a table of `cap` slots. -/
def dCyc (cap a b : Nat) : Nat := if a ≤ b then b - a else b + cap - a

/-- Cyclic advance of `a` by `t` steps (for `a, t < cap`). -/
def addCyc (cap a t : Nat) : Nat := if a + t < cap then a + t else a + t - cap

/-- `x` lies on the cyclic segment `[a, b)`. -/
@[reducible]
def inCyc (cap a b x : Nat) : Prop := dCyc cap a x < dCyc cap a b

theorem dCyc_lt (cap a b : Nat) (ha : a < cap) (hb : b < cap) :
    dCyc cap a b < cap := by
  unfold dCyc
  split <;> omega

theorem addCyc_lt (cap a t : Nat) (ha : a < cap) (ht : t ≤ cap) :
    addCyc cap a t < cap := by
  unfold addCyc
  split <;> omega

theorem dCyc_self (cap a : Nat) : dCyc cap a a = 0 := by
  unfold dCyc
  split <;> omega

theorem dCyc_eq_zero_iff (cap a b : Nat) (ha : a < cap) (_hb : b < cap) :
    dCyc cap a b = 0 ↔ a = b := by
  unfold dCyc
  split <;> omega

theorem addCyc_zero (cap a : Nat) (ha : a < cap) : addCyc cap a 0 = a := by
  unfold addCyc
  split <;> omega

theorem dCyc_addCyc_cancel (cap a t : Nat) (ha : a < cap) (ht : t < cap) :
    dCyc cap a (addCyc cap a t) = t := by
  unfold dCyc addCyc
  split <;> split <;> omega

theorem addCyc_dCyc_cancel (cap a b : Nat) (ha : a < cap) (hb : b < cap) :
    addCyc cap a (dCyc cap a b) = b := by
  unfold dCyc addCyc
  split <;> split <;> omega

theorem dCyc_rotate (cap i0 a b : Nat) (hi : i0 < cap) (ha : a < cap)
    (hb : b < cap) :
    dCyc cap (addCyc cap i0 a) (addCyc cap i0 b) = dCyc cap a b := by
  unfold dCyc addCyc
  split_ifs <;> omega

theorem addCyc_inj (cap a s t : Nat) (ha : a < cap) (hs : s < cap)
    (ht : t < cap) (h : addCyc cap a s = addCyc cap a t) : s = t := by
  unfold addCyc at h
  split at h <;> split at h <;> omega

theorem mod_step (cap a : Nat) (ha : a < cap) :
    (a + 1) % cap = addCyc cap a 1 := by
  unfold addCyc
  by_cases h : a + 1 < cap
  · rw [if_pos h, Nat.mod_eq_of_lt h]
  · rw [if_neg h]
    have he : a + 1 = cap := by omega
    rw [he, Nat.mod_self]
    omega

theorem addCyc_succ (cap a t : Nat) (ha : a < cap) (ht : t + 1 < cap) :
    addCyc cap (addCyc cap a t) 1 = addCyc cap a (t + 1) := by
  unfold addCyc
  split <;> split <;> split <;> omega

theorem dCyc_step_sub (cap i q : Nat) (hi : i < cap) (hq : q < cap)
    (hne : i ≠ q) :
    dCyc cap (addCyc cap i 1) q + 1 = dCyc cap i q := by
  unfold dCyc addCyc
  split <;> split <;> split <;> omega

theorem dCyc_step_of_ne (cap i x : Nat) (hi : i < cap) (hx : x < cap)
    (hne : x ≠ i) :
    dCyc cap i x = dCyc cap (addCyc cap i 1) x + 1 := by
  unfold dCyc addCyc
  split <;> split <;> split <;> omega

theorem inCyc_step (cap i q x : Nat) (hi : i < cap) (hq : q < cap)
    (hx : x < cap) (hne : i ≠ q) (h : inCyc cap (addCyc cap i 1) q x) :
    inCyc cap i q x := by
  unfold inCyc at h ⊢
  by_cases hxi : x = i
  · rw [hxi, dCyc_self]
    have h0 : dCyc cap i q ≠ 0 := fun hz =>
      hne ((dCyc_eq_zero_iff cap i q hi hq).mp hz)
    omega
  · rw [dCyc_step_of_ne cap i x hi hx hxi, ← dCyc_step_sub cap i q hi hq hne]
    omega

/-- The spec's wrap-aware XOR predicate of `remove_by_idx`, read in
coordinates rotated to an arbitrary origin `i0`: with the hole at
coordinate `a` and the scan at the strictly later coordinate `b`, the
moved key's home coordinate `e` avoids the half-open segment `(a, b]`. -/
theorem xor3_true_iff (a b c : Bool) :
    (a.xor (b.xor c) = true) ↔
      ((a = true) ↔ ¬((b = true) ↔ ¬(c = true))) := by
  cases a <;> cases b <;> cases c <;> decide

theorem xor_pred_iff (cap i0 i j1 h : Nat) (hi0 : i0 < cap) (hi : i < cap)
    (hj : j1 < cap) (hh : h < cap)
    (hab : dCyc cap i0 i < dCyc cap i0 j1) :
    ((decide (j1 < i)).xor ((decide (h ≤ i)).xor (decide (j1 < h))) = true) ↔
    ¬(dCyc cap i0 i < dCyc cap i0 h ∧ dCyc cap i0 h ≤ dCyc cap i0 j1) := by
  rw [xor3_true_iff]
  simp only [decide_eq_true_eq]
  unfold dCyc at hab ⊢
  split_ifs at * <;> omega

/-! ### List helpers for the back-shift proof. -/

theorem getD_set_self {A : Type} (l : List A) (i : Nat) (x d : A)
    (h : i < l.length) : (l.set i x).getD i d = x := by
  induction l generalizing i with
  | nil => simp at h
  | cons a t ih =>
    cases i with
    | zero => rfl
    | succ i =>
      simp only [List.set, List.getD_cons_succ]
      exact ih i (by simpa using h)

theorem getD_set_ne {A : Type} (l : List A) (i j : Nat) (x d : A)
    (h : i ≠ j) : (l.set i x).getD j d = l.getD j d := by
  induction l generalizing i j with
  | nil => rfl
  | cons a t ih =>
    cases i with
    | zero =>
      cases j with
      | zero => exact absurd rfl h
      | succ j => rfl
    | succ i =>
      cases j with
      | zero => rfl
      | succ j =>
        simp only [List.set, List.getD_cons_succ]
        exact ih i j (fun he => h (by rw [he]))

theorem getD_zero_mem (l : List Nat) (h : l ≠ []) : l.getD 0 0 ∈ l := by
  cases l with
  | nil => exact absurd rfl h
  | cons a t => exact List.mem_cons_self a t

theorem head_max_of_anti (l : List Nat) (hpw : l.Pairwise (· > ·)) :
    ∀ a ∈ l, a ≤ l.getD 0 0 := by
  cases l with
  | nil => intro a ha; simp at ha
  | cons x t =>
    intro a ha
    rcases List.mem_cons.mp ha with rfl | hat
    · exact Nat.le_refl _
    · exact Nat.le_of_lt ((List.pairwise_cons.mp hpw).1 a hat)

theorem getD_anti_mono (l : List Nat) (hpw : l.Pairwise (· > ·))
    (r r2 : Nat) (h : r < r2) (h2 : r2 < l.length) :
    l.getD r2 0 < l.getD r 0 := by
  have hr : r < l.length := Nat.lt_trans h h2
  rw [List.getD_eq_getElem l 0 hr, List.getD_eq_getElem l 0 h2]
  exact List.pairwise_iff_getElem.mp hpw r r2 hr h2 h

theorem mem_tail_getD (l : List Nat) (s : Nat) (h : s ∈ l.tail) :
    ∃ r, r + 1 < l.length ∧ l.getD (r + 1) 0 = s := by
  cases l with
  | nil => simp at h
  | cons a t =>
    obtain ⟨r, hr, he⟩ := List.getElem_of_mem h
    refine ⟨r, by simpa using hr, ?_⟩
    rw [List.getD_cons_succ, List.getD_eq_getElem t 0 hr]
    exact he

theorem getD_succ_mem_tail (l : List Nat) (r : Nat) (h : r + 1 < l.length) :
    l.getD (r + 1) 0 ∈ l.tail := by
  cases l with
  | nil => simp at h
  | cons a t =>
    rw [List.getD_cons_succ, List.getD_eq_getElem t 0 (by simpa using h)]
    exact List.getElem_mem _

theorem dCyc_coords (cap i0 a b : Nat) (hi0 : i0 < cap) (ha : a < cap)
    (hb : b < cap) :
    dCyc cap a b = dCyc cap (dCyc cap i0 a) (dCyc cap i0 b) := by
  have h := dCyc_rotate cap i0 (dCyc cap i0 a) (dCyc cap i0 b) hi0
    (dCyc_lt cap i0 a hi0 ha) (dCyc_lt cap i0 b hi0 hb)
  rw [addCyc_dCyc_cancel cap i0 a hi0 ha,
    addCyc_dCyc_cancel cap i0 b hi0 hb] at h
  exact h

theorem cyc_lemA (cap E b c t2 : Nat) (hE : E < cap) (hb : b ≤ t2)
    (hc : c ≤ t2) (ht : t2 + 1 < cap) (h1 : b < E) (h2 : E ≤ c) :
    dCyc cap E (t2 + 1) < dCyc cap E b := by
  unfold dCyc
  split_ifs <;> omega

theorem cyc_lemB (cap E a b : Nat) (hE : E < cap) (hab : a < b)
    (hbc : b < cap) (hn : ¬(a < E ∧ E ≤ b)) :
    dCyc cap E a ≤ dCyc cap E b := by
  unfold dCyc
  split_ifs <;> omega

theorem cyc_lemC (cap E a b c : Nat) (hE : E < cap) (hab : a < b)
    (hbc : b ≤ c) (hcc : c < cap) (hn1 : ¬(a < E ∧ E ≤ b))
    (hn2 : ¬(b < E ∧ E ≤ c)) :
    dCyc cap E a ≤ dCyc cap E c := by
  unfold dCyc
  split_ifs <;> omega

theorem cyc_lemD (cap E c sq : Nat) (hE : E < cap) (hc : c < cap)
    (hsq : sq < cap) (hle : E ≤ sq) (hor : c < E ∨ sq < c)
    (hlt : dCyc cap E c < dCyc cap E sq) : False := by
  unfold dCyc at hlt
  split_ifs at hlt <;> omega

theorem cyc_lemE (cap E c sq t2 : Nat) (hE : E < cap) (hc : c ≤ t2)
    (ht : t2 + 1 < cap) (hsq : sq < cap) (hne : t2 + 1 ≠ sq)
    (hgt : t2 < sq) (hlt : dCyc cap E c < dCyc cap E sq) :
    dCyc cap E (t2 + 1) < dCyc cap E sq := by
  unfold dCyc at hlt ⊢
  split_ifs at * <;> omega

namespace SCertifiedHashMapNode

variable {K V : Type} [DecidableEq K] [Inhabited V]

/-- Well-formedness of a live open-addressing node: positive capacity,
backing lists of the right length, at least one `EMPTY` slot, no duplicate
keys, and the linear-probing invariant: every stored key's probe path from
its home slot to its actual slot is fully occupied. -/
def WFNode (hashKey : K → Nat) (n : SCertifiedHashMapNode K V) (cap : Nat) :
    Prop :=
  0 < cap ∧ n.slots.length = cap ∧ n.vals.length = cap ∧
  n.entryH.length = cap ∧
  (∃ e, e < cap ∧ n.slots.getD e none = none) ∧
  (∀ i, i < cap → ∀ j, j < cap → ∀ k : K, n.slots.getD i none = some k →
    n.slots.getD j none = some k → i = j) ∧
  (∀ q, q < cap → ∀ k : K, n.slots.getD q none = some k →
    ∀ x, x < cap → inCyc cap (hashKey k % cap) q x →
      n.slots.getD x none ≠ none)

theorem findLoop_complete (n : SCertifiedHashMapNode K V)
    (cap : Nat) (key : K) (q : Nat) (hq : q < cap)
    (hkq : n.slots.getD q none = some key)
    (hdis : ∀ i, i < cap → ∀ j, j < cap → ∀ k : K,
      n.slots.getD i none = some k → n.slots.getD j none = some k → i = j) :
    ∀ fuel i, i < cap → dCyc cap i q < fuel →
      (∀ x, x < cap → inCyc cap i q x → n.slots.getD x none ≠ none) →
      findLoop fuel n key i cap = some (q, key) := by
  intro fuel
  induction fuel with
  | zero =>
    intro i _ hd _
    omega
  | succ fuel ih =>
    intro i hi hd hp
    by_cases hiq : i = q
    · subst hiq
      unfold findLoop
      rw [hkq]
      dsimp only
      rw [if_pos rfl]
    · have h0 : dCyc cap i q ≠ 0 := fun hz =>
        hiq ((dCyc_eq_zero_iff cap i q hi hq).mp hz)
      have hocc : n.slots.getD i none ≠ none := by
        refine hp i hi ?_
        unfold inCyc
        rw [dCyc_self]
        omega
      rcases hs : n.slots.getD i none with _ | k1
      · exact absurd hs hocc
      · have hk1 : k1 ≠ key := fun he =>
          hiq (hdis i hi q hq key (by rw [hs, he]) hkq)
        unfold findLoop
        rw [hs]
        dsimp only
        rw [if_neg hk1, mod_step cap i hi]
        refine ih (addCyc cap i 1) (addCyc_lt cap i 1 hi (by omega)) ?_ ?_
        · have := dCyc_step_sub cap i q hi hq hiq
          omega
        · exact fun x hx hin => hp x hx (inCyc_step cap i q x hi hq hx hiq hin)

theorem findInnerIdx_complete (hashKey : K → Nat)
    (n : SCertifiedHashMapNode K V) (cap : Nat) (key : K) (q : Nat)
    (hq : q < cap) (hkq : n.slots.getD q none = some key)
    (hwf : WFNode hashKey n cap) :
    findInnerIdx hashKey n key cap = some (q, key) := by
  obtain ⟨hcap, _, _, _, _, hdis, hprobe⟩ := hwf
  unfold findInnerIdx
  exact findLoop_complete n cap key q hq hkq hdis cap (hashKey key % cap)
    (Nat.mod_lt _ hcap) (dCyc_lt cap _ q (Nat.mod_lt _ hcap) hq)
    (fun x hx hin => hprobe q hq key hkq x hx hin)

theorem findLoop_absent (n : SCertifiedHashMapNode K V) (cap : Nat) (key : K)
    (habs : ∀ x, x < cap → n.slots.getD x none ≠ some key) :
    ∀ fuel i, i < cap → findLoop fuel n key i cap = none := by
  intro fuel
  induction fuel with
  | zero =>
    intro i _
    rfl
  | succ fuel ih =>
    intro i hi
    unfold findLoop
    rcases hs : n.slots.getD i none with _ | k1
    · rfl
    · have hk1 : k1 ≠ key := fun he => habs i hi (by rw [hs, he])
      dsimp only
      rw [if_neg hk1, mod_step cap i hi]
      exact ih (addCyc cap i 1) (addCyc_lt cap i 1 hi (by omega))


/-- Loop invariant of `remove_by_idx`'s back-shift scan, in coordinates
rotated so that the original hole sits at 0.  `A` lists the coordinates of
all holes so far, newest first (so `A.getD 0 0` is the current hole and
`0 ∈ A` is the original one); `t` is the coordinate of the last examined
slot. -/
structure ShiftInv (hashKey : K → Nat) (cap i0 : Nat)
    (n0 n : SCertifiedHashMapNode K V) (A : List Nat) (t : Nat) : Prop where
  ne : A ≠ []
  mem0 : 0 ∈ A
  pw : A.Pairwise (· > ·)
  le_t : ∀ a ∈ A, a ≤ t
  t_lt : t < cap
  scanned : ∀ s, s ≤ t → n0.slots.getD (addCyc cap i0 s) none ≠ none
  untouched : ∀ s, s < cap → s ∉ A.tail →
    n.slots.getD (addCyc cap i0 s) none =
      n0.slots.getD (addCyc cap i0 s) none ∧
    n.vals.getD (addCyc cap i0 s) default =
      n0.vals.getD (addCyc cap i0 s) default ∧
    n.entryH.getD (addCyc cap i0 s) EMPTY_SHA256 =
      n0.entryH.getD (addCyc cap i0 s) EMPTY_SHA256
  moved : ∀ r, r + 1 < A.length →
    n.slots.getD (addCyc cap i0 (A.getD (r+1) 0)) none =
      n0.slots.getD (addCyc cap i0 (A.getD r 0)) none ∧
    n.vals.getD (addCyc cap i0 (A.getD (r+1) 0)) default =
      n0.vals.getD (addCyc cap i0 (A.getD r 0)) default ∧
    n.entryH.getD (addCyc cap i0 (A.getD (r+1) 0)) EMPTY_SHA256 =
      n0.entryH.getD (addCyc cap i0 (A.getD r 0)) EMPTY_SHA256
  predrec : ∀ r, r + 1 < A.length → ∀ k : K,
    n0.slots.getD (addCyc cap i0 (A.getD r 0)) none = some k →
    ¬(A.getD (r+1) 0 < dCyc cap i0 (hashKey k % cap) ∧
      dCyc cap i0 (hashKey k % cap) ≤ A.getD r 0)
  passrec : ∀ s, 0 < s → s ≤ t → s ∉ A → ∀ k : K,
    n0.slots.getD (addCyc cap i0 s) none = some k →
    dCyc cap i0 (hashKey k % cap) ≤ s ∧
    ∀ a ∈ A, a < dCyc cap i0 (hashKey k % cap) ∨ s < a
  len_s : n.slots.length = n0.slots.length
  len_v : n.vals.length = n0.vals.length
  len_e : n.entryH.length = n0.entryH.length

theorem shiftLoop_spec (hashKey : K → Nat) (cap i0 : Nat)
    (n0 : SCertifiedHashMapNode K V) (hi0 : i0 < cap)
    (hlen : n0.slots.length = cap) (hlenv : n0.vals.length = cap)
    (hlene : n0.entryH.length = cap)
    (d0 : Nat) (hd0c : d0 < cap)
    (hd0e : n0.slots.getD (addCyc cap i0 d0) none = none) :
    ∀ fuel (n : SCertifiedHashMapNode K V) (A : List Nat) (t : Nat)
      (is : List Nat),
      ShiftInv hashKey cap i0 n0 n A t →
      cap ≤ fuel + t →
      is = A.tail.reverse.map (addCyc cap i0) →
      ∃ A2 t2,
        ShiftInv hashKey cap i0 n0
          (shiftLoop hashKey fuel n (addCyc cap i0 (A.getD 0 0))
            (addCyc cap i0 t) cap is).1 A2 t2 ∧
        (shiftLoop hashKey fuel n (addCyc cap i0 (A.getD 0 0))
            (addCyc cap i0 t) cap is).2.1 = addCyc cap i0 (A2.getD 0 0) ∧
        (shiftLoop hashKey fuel n (addCyc cap i0 (A.getD 0 0))
            (addCyc cap i0 t) cap is).2.2 =
          A2.tail.reverse.map (addCyc cap i0) ∧
        t2 + 1 < cap ∧
        n0.slots.getD (addCyc cap i0 (t2 + 1)) none = none ∧
        t ≤ t2 ∧ ∃ B, A2 = B ++ A := by
  intro fuel
  induction fuel with
  | zero =>
    intro n A t is hinv hfuel _
    exact absurd hinv.t_lt (by omega)
  | succ fuel ih =>
    intro n A t is hinv hfuel his
    have hcap : 0 < cap := by
      have := hinv.t_lt
      omega
    have htd0 : t < d0 := by
      by_contra hge
      exact hinv.scanned d0 (by omega) hd0e
    have ht1 : t + 1 < cap := by omega
    have hb0 : A.getD 0 0 ∈ A := getD_zero_mem A hinv.ne
    have hb0t : A.getD 0 0 ≤ t := hinv.le_t _ hb0
    have hb0c : A.getD 0 0 < cap := by omega
    unfold shiftLoop
    rw [mod_step cap (addCyc cap i0 t) (addCyc_lt cap i0 t hi0 (by omega)),
      addCyc_succ cap i0 t hi0 ht1]
    have hne1 : addCyc cap i0 (t + 1) ≠ addCyc cap i0 (A.getD 0 0) := by
      intro he
      have := addCyc_inj cap i0 (t + 1) (A.getD 0 0) hi0 (by omega)
        (by omega) he
      omega
    rw [if_neg hne1]
    have hnotin1 : t + 1 ∉ A.tail := fun hm => by
      have := hinv.le_t _ (List.mem_of_mem_tail hm)
      omega
    have hnotin1A : t + 1 ∉ A := fun hm => by
      have := hinv.le_t _ hm
      omega
    rcases hs : n.slots.getD (addCyc cap i0 (t + 1)) none with _ | nextKey
    · have hn0 : n0.slots.getD (addCyc cap i0 (t + 1)) none = none := by
        rw [← (hinv.untouched (t + 1) ht1 hnotin1).1]
        exact hs
      exact ⟨A, t, hinv, rfl, his, ht1, hn0, Nat.le_refl t, [], rfl⟩
    · dsimp only
      have hn0k : n0.slots.getD (addCyc cap i0 (t + 1)) none =
          some nextKey := by
        rw [← (hinv.untouched (t + 1) ht1 hnotin1).1]
        exact hs
      have hhk : hashKey nextKey % cap < cap := Nat.mod_lt _ hcap
      have hxp := xor_pred_iff cap i0 (addCyc cap i0 (A.getD 0 0))
        (addCyc cap i0 (t + 1)) (hashKey nextKey % cap) hi0
        (addCyc_lt cap i0 (A.getD 0 0) hi0 (by omega))
        (addCyc_lt cap i0 (t + 1) hi0 (by omega)) hhk
        (by
          rw [dCyc_addCyc_cancel cap i0 (A.getD 0 0) hi0 hb0c,
            dCyc_addCyc_cancel cap i0 (t + 1) hi0 ht1]
          omega)
      rw [dCyc_addCyc_cancel cap i0 (A.getD 0 0) hi0 hb0c,
        dCyc_addCyc_cancel cap i0 (t + 1) hi0 ht1] at hxp
      by_cases hpred : ((decide (addCyc cap i0 (t + 1) <
          addCyc cap i0 (A.getD 0 0))).xor
          ((decide (hashKey nextKey % cap ≤ addCyc cap i0 (A.getD 0 0))).xor
            (decide (addCyc cap i0 (t + 1) < hashKey nextKey % cap)))) = true
      · rw [if_pos hpred]
        have hfact := hxp.mp hpred
        have hinv1 : ShiftInv hashKey cap i0 n0
            { n with
              slots := n.slots.set (addCyc cap i0 (A.getD 0 0)) (some nextKey),
              vals := n.vals.set (addCyc cap i0 (A.getD 0 0))
                (n.readValAt (addCyc cap i0 (t + 1))),
              entryH := n.entryH.set (addCyc cap i0 (A.getD 0 0))
                (n.readEntryHashAt (addCyc cap i0 (t + 1))) }
            ((t + 1) :: A) (t + 1) := by
          refine ⟨List.cons_ne_nil _ _, List.mem_cons_of_mem _ hinv.mem0,
            ?_, ?_, ht1, ?_, ?_, ?_, ?_, ?_, ?_, ?_, ?_⟩
          · exact List.pairwise_cons.mpr
              ⟨fun a ha => by have := hinv.le_t a ha; omega, hinv.pw⟩
          · intro a ha
            rcases List.mem_cons.mp ha with rfl | hat
            · exact Nat.le_refl _
            · have := hinv.le_t a hat
              omega
          · intro s hst
            by_cases hs2 : s ≤ t
            · exact hinv.scanned s hs2
            · have : s = t + 1 := by omega
              rw [this, hn0k]
              exact Option.noConfusion
          · intro s hsc hsA
            have hsb0 : s ≠ A.getD 0 0 := fun he => hsA (he ▸ hb0)
            have hps : addCyc cap i0 s ≠ addCyc cap i0 (A.getD 0 0) :=
              fun he => hsb0 (addCyc_inj cap i0 s (A.getD 0 0) hi0 hsc hb0c he)
            have hnt : s ∉ A.tail := fun hm => hsA (List.mem_of_mem_tail hm)
            refine ⟨?_, ?_, ?_⟩
            · show (n.slots.set (addCyc cap i0 (A.getD 0 0))
                (some nextKey)).getD (addCyc cap i0 s) none = _
              rw [getD_set_ne _ _ _ _ _ (fun he => hps he.symm)]
              exact (hinv.untouched s hsc hnt).1
            · show (n.vals.set (addCyc cap i0 (A.getD 0 0)) _).getD
                (addCyc cap i0 s) default = _
              rw [getD_set_ne _ _ _ _ _ (fun he => hps he.symm)]
              exact (hinv.untouched s hsc hnt).2.1
            · show (n.entryH.set (addCyc cap i0 (A.getD 0 0)) _).getD
                (addCyc cap i0 s) EMPTY_SHA256 = _
              rw [getD_set_ne _ _ _ _ _ (fun he => hps he.symm)]
              exact (hinv.untouched s hsc hnt).2.2
          · intro r hr
            cases r with
            | zero =>
              have hb0len : addCyc cap i0 (A.getD 0 0) < n.slots.length := by
                rw [hinv.len_s, hlen]
                exact addCyc_lt cap i0 _ hi0 (by omega)
              have hb0lenv : addCyc cap i0 (A.getD 0 0) < n.vals.length := by
                rw [hinv.len_v, hlenv]
                exact addCyc_lt cap i0 _ hi0 (by omega)
              have hb0lene : addCyc cap i0 (A.getD 0 0) < n.entryH.length := by
                rw [hinv.len_e, hlene]
                exact addCyc_lt cap i0 _ hi0 (by omega)
              refine ⟨?_, ?_, ?_⟩
              · show (n.slots.set (addCyc cap i0 (A.getD 0 0))
                  (some nextKey)).getD (addCyc cap i0 (A.getD 0 0)) none = _
                rw [getD_set_self _ _ _ _ hb0len]
                exact hn0k.symm
              · show (n.vals.set (addCyc cap i0 (A.getD 0 0))
                  (n.readValAt (addCyc cap i0 (t + 1)))).getD
                    (addCyc cap i0 (A.getD 0 0)) default = _
                rw [getD_set_self _ _ _ _ hb0lenv]
                show n.vals.getD (addCyc cap i0 (t + 1)) default = _
                exact (hinv.untouched (t + 1) ht1 hnotin1).2.1
              · show (n.entryH.set (addCyc cap i0 (A.getD 0 0))
                  (n.readEntryHashAt (addCyc cap i0 (t + 1)))).getD
                    (addCyc cap i0 (A.getD 0 0)) EMPTY_SHA256 = _
                rw [getD_set_self _ _ _ _ hb0lene]
                show n.entryH.getD (addCyc cap i0 (t + 1)) EMPTY_SHA256 = _
                exact (hinv.untouched (t + 1) ht1 hnotin1).2.2
            | succ r =>
              have hrA : r + 1 < A.length := by
                simpa using hr
              have hlt : A.getD (r + 1) 0 < A.getD 0 0 :=
                getD_anti_mono A hinv.pw 0 (r + 1) (by omega) hrA
              have hne2 : addCyc cap i0 (A.getD (r + 1) 0) ≠
                  addCyc cap i0 (A.getD 0 0) := by
                intro he
                have hm1 := getD_succ_mem_tail A r hrA
                have := hinv.le_t _ (List.mem_of_mem_tail hm1)
                have := addCyc_inj cap i0 (A.getD (r + 1) 0) (A.getD 0 0)
                  hi0 (by omega) (by omega) he
                omega
              have hm := hinv.moved r hrA
              refine ⟨?_, ?_, ?_⟩
              · show (n.slots.set (addCyc cap i0 (A.getD 0 0))
                  (some nextKey)).getD (addCyc cap i0 (A.getD (r + 1) 0))
                    none = _
                rw [getD_set_ne _ _ _ _ _ (fun he => hne2 he.symm)]
                exact hm.1
              · show (n.vals.set (addCyc cap i0 (A.getD 0 0)) _).getD
                  (addCyc cap i0 (A.getD (r + 1) 0)) default = _
                rw [getD_set_ne _ _ _ _ _ (fun he => hne2 he.symm)]
                exact hm.2.1
              · show (n.entryH.set (addCyc cap i0 (A.getD 0 0)) _).getD
                  (addCyc cap i0 (A.getD (r + 1) 0)) EMPTY_SHA256 = _
                rw [getD_set_ne _ _ _ _ _ (fun he => hne2 he.symm)]
                exact hm.2.2
          · intro r hr k hk
            cases r with
            | zero =>
              have hkk : k = nextKey := by
                have hk2 : n0.slots.getD (addCyc cap i0 (t + 1)) none =
                    some k := hk
                rw [hn0k] at hk2
                exact (Option.some_inj.mp hk2).symm
              subst hkk
              exact fun hc => hfact ⟨hc.1, hc.2⟩
            | succ r =>
              exact hinv.predrec r (by simpa using hr) k hk
          · intro s hs0 hst hsA k hk
            have hsA2 : s ∉ A := fun hm => hsA (List.mem_cons_of_mem _ hm)
            have hst2 : s ≤ t := by
              rcases Nat.lt_or_ge s (t + 1) with h | h
              · omega
              · exact absurd (by omega : s = t + 1)
                  (fun he => hsA (he ▸ List.mem_cons_self _ _))
            refine ⟨(hinv.passrec s hs0 hst2 hsA2 k hk).1, ?_⟩
            intro a ha
            rcases List.mem_cons.mp ha with rfl | hat
            · right
              omega
            · exact (hinv.passrec s hs0 hst2 hsA2 k hk).2 a hat
          · show (n.slots.set _ _).length = _
            rw [List.length_set]
            exact hinv.len_s
          · show (n.vals.set _ _).length = _
            rw [List.length_set]
            exact hinv.len_v
          · show (n.entryH.set _ _).length = _
            rw [List.length_set]
            exact hinv.len_e
        have harg : is ++ [addCyc cap i0 (A.getD 0 0)] =
            ((t + 1) :: A).tail.reverse.map (addCyc cap i0) := by
          rcases hAe : A with _ | ⟨a0, A0⟩
          · exact absurd hAe hinv.ne
          · rw [his, hAe]
            simp [List.reverse_cons]
        obtain ⟨A2, t2, h1, h2, h3, h4, h5, h6, B, h7⟩ :=
          ih { n with
              slots := n.slots.set (addCyc cap i0 (A.getD 0 0)) (some nextKey),
              vals := n.vals.set (addCyc cap i0 (A.getD 0 0))
                (n.readValAt (addCyc cap i0 (t + 1))),
              entryH := n.entryH.set (addCyc cap i0 (A.getD 0 0))
                (n.readEntryHashAt (addCyc cap i0 (t + 1))) }
            ((t + 1) :: A) (t + 1) (is ++ [addCyc cap i0 (A.getD 0 0)])
            hinv1 (by omega) harg
        refine ⟨A2, t2, h1, h2, h3, h4, h5, by omega, B ++ [t + 1], ?_⟩
        rw [h7, List.append_assoc]
        rfl
      · rw [if_neg hpred]
        have hfact : A.getD 0 0 < dCyc cap i0 (hashKey nextKey % cap) ∧
            dCyc cap i0 (hashKey nextKey % cap) ≤ t + 1 :=
          Decidable.not_not.mp (fun hnn => hpred (hxp.mpr hnn))
        have hinv2 : ShiftInv hashKey cap i0 n0 n A (t + 1) := by
          refine ⟨hinv.ne, hinv.mem0, hinv.pw, ?_, ht1, ?_, ?_, hinv.moved,
            hinv.predrec, ?_, hinv.len_s, hinv.len_v, hinv.len_e⟩
          · intro a ha
            have := hinv.le_t a ha
            omega
          · intro s hst
            by_cases hs2 : s ≤ t
            · exact hinv.scanned s hs2
            · have : s = t + 1 := by omega
              rw [this, hn0k]
              exact Option.noConfusion
          · exact hinv.untouched
          · intro s hs0 hst hsA k hk
            by_cases hs2 : s ≤ t
            · exact hinv.passrec s hs0 hs2 hsA k hk
            · have hseq : s = t + 1 := by omega
              subst hseq
              have hkk : k = nextKey := by
                rw [hn0k] at hk
                exact (Option.some_inj.mp hk).symm
              subst hkk
              refine ⟨hfact.2, ?_⟩
              intro a ha
              left
              have := head_max_of_anti A hinv.pw a ha
              omega
        obtain ⟨A2, t2, h1, h2, h3, h4, h5, h6, B, h7⟩ :=
          ih n A (t + 1) is hinv2 (by omega) his
        exact ⟨A2, t2, h1, h2, h3, h4, h5, by omega, B, h7⟩

end SCertifiedHashMapNode

end Spec2Proof

namespace Spec2Proof

theorem mem_getD (l : List Nat) (s : Nat) (h : s ∈ l) :
    ∃ r, r < l.length ∧ l.getD r 0 = s := by
  obtain ⟨r, hr, he⟩ := List.getElem_of_mem h
  exact ⟨r, hr, by rw [List.getD_eq_getElem l 0 hr]; exact he⟩

theorem getD_mem (l : List Nat) (r : Nat) (h : r < l.length) :
    l.getD r 0 ∈ l := by
  rw [List.getD_eq_getElem l 0 h]
  exact List.getElem_mem _

theorem zero_last_of_anti (l : List Nat) (hpw : l.Pairwise (· > ·))
    (h0 : 0 ∈ l) : l.getD (l.length - 1) 0 = 0 := by
  obtain ⟨p, hp, hpe⟩ := mem_getD l 0 h0
  by_cases hpl : p = l.length - 1
  · rw [← hpl]
    exact hpe
  · have := getD_anti_mono l hpw p (l.length - 1) (by omega) (by omega)
    omega

theorem head_or_tail (l : List Nat) (s : Nat) (h : s ∈ l) :
    s = l.getD 0 0 ∨ s ∈ l.tail := by
  cases l with
  | nil => simp at h
  | cons a t =>
    rcases List.mem_cons.mp h with rfl | ht
    · exact Or.inl rfl
    · exact Or.inr ht

namespace SCertifiedHashMapNode

variable {K V : Type} [DecidableEq K] [Inhabited V]

theorem recalc_preserves (fuel : Nat) (n : SCertifiedHashMapNode K V)
    (sha : Digest) (i cap : Nat) :
    (recalculateMerkleTree fuel n sha i cap).1.slots = n.slots ∧
    (recalculateMerkleTree fuel n sha i cap).1.vals = n.vals ∧
    (recalculateMerkleTree fuel n sha i cap).1.entryH = n.entryH ∧
    (recalculateMerkleTree fuel n sha i cap).1.len = n.len := by
  induction fuel generalizing n sha i with
  | zero => exact ⟨rfl, rfl, rfl, rfl⟩
  | succ fuel ih =>
    unfold recalculateMerkleTree
    by_cases h0 : i = 0
    · rw [if_pos h0]
      exact ⟨rfl, rfl, rfl, rfl⟩
    · rw [if_neg h0]
      by_cases h1 : i % 2 = 1
      · rw [if_pos h1]
        exact ih _ _ _
      · rw [if_neg h1]
        exact ih _ _ _

theorem touchPass_preserves (acc : SCertifiedHashMapNode K V × Digest)
    (idx cap : Nat) :
    (touchPass acc idx cap).1.slots = acc.1.slots ∧
    (touchPass acc idx cap).1.vals = acc.1.vals ∧
    (touchPass acc idx cap).1.entryH = acc.1.entryH ∧
    (touchPass acc idx cap).1.len = acc.1.len := by
  unfold touchPass
  dsimp only
  exact recalc_preserves _ _ _ _ _

theorem foldl_touchPass_preserves (cap : Nat) :
    ∀ (l : List Nat) (acc : SCertifiedHashMapNode K V × Digest),
    ((l.foldl (fun acc idx => touchPass acc idx cap) acc).1.slots =
      acc.1.slots) ∧
    ((l.foldl (fun acc idx => touchPass acc idx cap) acc).1.vals =
      acc.1.vals) ∧
    ((l.foldl (fun acc idx => touchPass acc idx cap) acc).1.entryH =
      acc.1.entryH) ∧
    ((l.foldl (fun acc idx => touchPass acc idx cap) acc).1.len =
      acc.1.len) := by
  intro l
  induction l with
  | nil => exact fun acc => ⟨rfl, rfl, rfl, rfl⟩
  | cons x xs ih =>
    intro acc
    rw [List.foldl_cons]
    obtain ⟨a1, a2, a3, a4⟩ := ih (touchPass acc x cap)
    obtain ⟨b1, b2, b3, b4⟩ := touchPass_preserves acc x cap
    exact ⟨a1.trans b1, a2.trans b2, a3.trans b3, a4.trans b4⟩

theorem removeByIdx_parts (hashKey : K → Nat)
    (n : SCertifiedHashMapNode K V) (i cap : Nat) :
    (removeByIdx hashKey n i cap).2.slots =
      ((shiftLoop hashKey cap
        { n with len := m64 (n.len + 18446744073709551615) } i i cap []).1.slots.set
        (shiftLoop hashKey cap
          { n with len := m64 (n.len + 18446744073709551615) } i i cap []).2.1
        none) ∧
    (removeByIdx hashKey n i cap).2.vals =
      (shiftLoop hashKey cap
        { n with len := m64 (n.len + 18446744073709551615) } i i cap []).1.vals ∧
    (removeByIdx hashKey n i cap).2.entryH =
      (shiftLoop hashKey cap
        { n with len := m64 (n.len + 18446744073709551615) } i i cap []).1.entryH := by
  unfold removeByIdx
  dsimp only
  rcases hsh : shiftLoop hashKey cap
      { n with len := m64 (n.len + 18446744073709551615) } i i cap [] with
    ⟨n1, i1, is1⟩
  dsimp only
  by_cases h1 : 0 < i1
  · rw [if_pos h1]
    refine ⟨?_, ?_, ?_⟩
    · exact ((foldl_touchPass_preserves cap is1.reverse _).1.trans
        (((recalc_preserves _ _ _ _ _).1).trans rfl))
    · exact ((foldl_touchPass_preserves cap is1.reverse _).2.1.trans
        (((recalc_preserves _ _ _ _ _).2.1).trans rfl))
    · exact ((foldl_touchPass_preserves cap is1.reverse _).2.2.1.trans
        (((recalc_preserves _ _ _ _ _).2.2.1).trans rfl))
  · rw [if_neg h1]
    refine ⟨?_, ?_, ?_⟩
    · exact ((foldl_touchPass_preserves cap is1.reverse _).1.trans rfl)
    · exact ((foldl_touchPass_preserves cap is1.reverse _).2.1.trans rfl)
    · exact ((foldl_touchPass_preserves cap is1.reverse _).2.2.1.trans rfl)

end SCertifiedHashMapNode

end Spec2Proof

namespace Spec2Proof

namespace SCertifiedHashMapNode

variable {K V : Type} [DecidableEq K] [Inhabited V]

theorem removeByIdx_spec (hashKey : K → Nat) (n : SCertifiedHashMapNode K V)
    (cap i0 : Nat) (key : K) (hi0 : i0 < cap)
    (hkey : n.slots.getD i0 none = some key)
    (hwf : WFNode hashKey n cap) :
    (∀ x, x < cap →
      (removeByIdx hashKey n i0 cap).2.slots.getD x none ≠ some key) ∧
    (∀ (k2 : K) (v : V), k2 ≠ key →
      ((∃ x, x < cap ∧
          (removeByIdx hashKey n i0 cap).2.slots.getD x none = some k2 ∧
          (removeByIdx hashKey n i0 cap).2.vals.getD x default = v) ↔
        (∃ x, x < cap ∧ n.slots.getD x none = some k2 ∧
          n.vals.getD x default = v))) ∧
    WFNode hashKey (removeByIdx hashKey n i0 cap).2 cap := by
  obtain ⟨hcap, hlens, hlenv, hlene, hemp0, hdis, hprobe⟩ := hwf
  obtain ⟨e0, he0c, he0e⟩ := hemp0
  have he0ne : e0 ≠ i0 := fun he => by
    rw [he, hkey] at he0e
    exact Option.noConfusion he0e
  have hd0e : ({ n with len := m64 (n.len + 18446744073709551615) } :
      SCertifiedHashMapNode K V).slots.getD
      (addCyc cap i0 (dCyc cap i0 e0)) none = none := by
    rw [addCyc_dCyc_cancel cap i0 e0 hi0 he0c]
    exact he0e
  have hinv0 : ShiftInv hashKey cap i0
      { n with len := m64 (n.len + 18446744073709551615) }
      { n with len := m64 (n.len + 18446744073709551615) } [0] 0 := by
    refine ⟨List.cons_ne_nil _ _, List.mem_singleton.mpr rfl,
      List.pairwise_singleton _ _, ?_, hcap, ?_, ?_, ?_, ?_, ?_,
      rfl, rfl, rfl⟩
    · intro a ha
      rw [List.mem_singleton.mp ha]
    · intro s hs
      have hs0 : s = 0 := by omega
      rw [hs0, addCyc_zero cap i0 hi0]
      show n.slots.getD i0 none ≠ none
      rw [hkey]
      exact Option.noConfusion
    · intro s _ _
      exact ⟨rfl, rfl, rfl⟩
    · intro r hr
      simp at hr
    · intro r hr
      simp at hr
    · intro s hs0 hs1 _ k _
      omega
  obtain ⟨A2, t2, hI, hieq, _, ht2, hempT, _, B, hBeq⟩ :=
    shiftLoop_spec hashKey cap i0
      { n with len := m64 (n.len + 18446744073709551615) } hi0 hlens hlenv
      hlene (dCyc cap i0 e0) (dCyc_lt cap i0 e0 hi0 he0c) hd0e cap
      { n with len := m64 (n.len + 18446744073709551615) } [0] 0 [] hinv0
      (by omega) rfl
  have hI2 : ShiftInv hashKey cap i0
      { n with len := m64 (n.len + 18446744073709551615) }
      (shiftLoop hashKey cap
        { n with len := m64 (n.len + 18446744073709551615) }
        (addCyc cap i0 0) (addCyc cap i0 0) cap []).1 A2 t2 := hI
  have hieq2 : (shiftLoop hashKey cap
      { n with len := m64 (n.len + 18446744073709551615) }
      (addCyc cap i0 0) (addCyc cap i0 0) cap []).2.1 =
      addCyc cap i0 (A2.getD 0 0) := hieq
  rw [addCyc_zero cap i0 hi0] at hI2 hieq2
  rcases hS : shiftLoop hashKey cap
      { n with len := m64 (n.len + 18446744073709551615) } i0 i0 cap [] with
    ⟨n1, i1, is1⟩
  rw [hS] at hI2 hieq2
  dsimp only at hI2 hieq2
  obtain ⟨hps, hpv, hpe⟩ := removeByIdx_parts hashKey n i0 cap
  rw [hS] at hps hpv hpe
  dsimp only at hps hpv hpe
  -- facts about A2 and the final hole
  have ht2c : t2 < cap := hI2.t_lt
  have hcle : A2.getD 0 0 ≤ t2 := hI2.le_t _ (getD_zero_mem A2 hI2.ne)
  have hclt : A2.getD 0 0 < cap := by omega
  have hi1c : i1 < cap := by
    rw [hieq2]
    exact addCyc_lt cap i0 _ hi0 (by omega)
  have hlen1s : n1.slots.length = cap := hI2.len_s.trans hlens
  have hlen1v : n1.vals.length = cap := hI2.len_v.trans hlenv
  have hlen1e : n1.entryH.length = cap := hI2.len_e.trans hlene
  -- invariant clauses rephrased over `n`
  have HuntS : ∀ s, s < cap → s ∉ A2.tail →
      n1.slots.getD (addCyc cap i0 s) none =
        n.slots.getD (addCyc cap i0 s) none :=
    fun s h1 h2 => (hI2.untouched s h1 h2).1
  have HuntV : ∀ s, s < cap → s ∉ A2.tail →
      n1.vals.getD (addCyc cap i0 s) default =
        n.vals.getD (addCyc cap i0 s) default :=
    fun s h1 h2 => (hI2.untouched s h1 h2).2.1
  have HmovS : ∀ r, r + 1 < A2.length →
      n1.slots.getD (addCyc cap i0 (A2.getD (r+1) 0)) none =
        n.slots.getD (addCyc cap i0 (A2.getD r 0)) none :=
    fun r hr => (hI2.moved r hr).1
  have HmovV : ∀ r, r + 1 < A2.length →
      n1.vals.getD (addCyc cap i0 (A2.getD (r+1) 0)) default =
        n.vals.getD (addCyc cap i0 (A2.getD r 0)) default :=
    fun r hr => (hI2.moved r hr).2.1
  have Hscan : ∀ s, s ≤ t2 → n.slots.getD (addCyc cap i0 s) none ≠ none :=
    fun s hs => hI2.scanned s hs
  have Hpass : ∀ s, 0 < s → s ≤ t2 → s ∉ A2 → ∀ k : K,
      n.slots.getD (addCyc cap i0 s) none = some k →
      dCyc cap i0 (hashKey k % cap) ≤ s ∧
      ∀ a ∈ A2, a < dCyc cap i0 (hashKey k % cap) ∨ s < a :=
    fun s h1 h2 h3 k hk => hI2.passrec s h1 h2 h3 k hk
  have Hpred : ∀ r, r + 1 < A2.length → ∀ k : K,
      n.slots.getD (addCyc cap i0 (A2.getD r 0)) none = some k →
      ¬(A2.getD (r+1) 0 < dCyc cap i0 (hashKey k % cap) ∧
        dCyc cap i0 (hashKey k % cap) ≤ A2.getD r 0) :=
    fun r hr k hk => hI2.predrec r hr k hk
  have Hemp : n.slots.getD (addCyc cap i0 (t2 + 1)) none = none := hempT
  have huniq : ∀ y, y < cap → n.slots.getD y none = some key → y = i0 :=
    fun y hy hk => hdis y hy i0 hi0 key hk hkey
  have hA2lt : ∀ a ∈ A2, a < cap := fun a ha => by
    have := hI2.le_t a ha
    omega
  -- the final hole in coordinates
  have hxcoord : ∀ x, x < cap → addCyc cap i0 (dCyc cap i0 x) = x :=
    fun x hx => addCyc_dCyc_cancel cap i0 x hi0 hx
  have hxi1 : ∀ x, x < cap → x ≠ i1 → dCyc cap i0 x ≠ A2.getD 0 0 := by
    intro x hx hne he
    exact hne (by rw [← hxcoord x hx, he, ← hieq2])
  have hi1coord : dCyc cap i0 i1 = A2.getD 0 0 := by
    rw [hieq2, dCyc_addCyc_cancel cap i0 _ hi0 hclt]
  -- occupied at moved positions
  have hocc1 : ∀ x, x < cap → dCyc cap i0 x ∈ A2.tail →
      ∃ k : K, n1.slots.getD x none = some k ∧
        ∃ r, r + 1 < A2.length ∧ A2.getD (r+1) 0 = dCyc cap i0 x ∧
          n.slots.getD (addCyc cap i0 (A2.getD r 0)) none = some k ∧
          n1.vals.getD x default =
            n.vals.getD (addCyc cap i0 (A2.getD r 0)) default := by
    intro x hx hmem
    obtain ⟨r, hr, hre⟩ := mem_tail_getD A2 _ hmem
    have hgr : A2.getD r 0 ≤ t2 :=
      hI2.le_t _ (getD_mem A2 r (by omega))
    rcases hks : n.slots.getD (addCyc cap i0 (A2.getD r 0)) none with _ | k
    · exact absurd hks (Hscan _ hgr)
    · refine ⟨k, ?_, r, hr, hre, hks, ?_⟩
      · rw [← hxcoord x hx, ← hre, HmovS r hr, hks]
      · rw [← hxcoord x hx, ← hre, HmovV r hr]
  have hoccm : ∀ z, z < cap → dCyc cap i0 z ∈ A2.tail →
      n1.slots.getD z none ≠ none := by
    intro z hz hm
    obtain ⟨kz, hk1z, _⟩ := hocc1 z hz hm
    rw [hk1z]
    exact fun h => Option.noConfusion h
  have hsetlen : i1 < n1.slots.length := by
    rw [hlen1s]
    exact hi1c
  refine ⟨?_, ?_, ?_⟩
  · -- the removed key is gone
    intro x hx
    rw [hps]
    by_cases hxe : x = i1
    · rw [hxe, getD_set_self _ _ _ _ hsetlen]
      exact fun h => Option.noConfusion h
    · rw [getD_set_ne _ _ _ _ _ (fun he => hxe he.symm)]
      by_cases hmem : dCyc cap i0 x ∈ A2.tail
      · obtain ⟨k, hk1, r, hr, hre, hks, _⟩ := hocc1 x hx hmem
        rw [hk1]
        intro hcon
        have hkk : k = key := Option.some_inj.mp hcon
        subst hkk
        have hgrc : A2.getD r 0 < cap := hA2lt _ (getD_mem A2 r (by omega))
        have hy := huniq _ (addCyc_lt cap i0 _ hi0 (by omega)) hks
        have h00 : addCyc cap i0 (A2.getD r 0) = addCyc cap i0 0 := by
          rw [hy, addCyc_zero cap i0 hi0]
        have h0 : A2.getD r 0 = 0 :=
          addCyc_inj cap i0 _ 0 hi0 hgrc (by omega) h00
        have := getD_anti_mono A2 hI2.pw r (r + 1) (by omega) hr
        omega
      · rw [← hxcoord x hx, HuntS _ (dCyc_lt cap i0 x hi0 hx) hmem,
          hxcoord x hx]
        intro hcon
        have hxi0 : x = i0 := huniq x hx hcon
        have h0A : dCyc cap i0 x = 0 := by
          rw [hxi0, dCyc_self]
        rcases head_or_tail A2 0 hI2.mem0 with hh | ht
        · exact hxe (by rw [← hxcoord x hx, h0A, hh, ← hieq2])
        · exact hmem (by rw [h0A]; exact ht)
  · -- content of every other key is preserved with its value
    intro k2 v hk2
    rw [hps, hpv]
    constructor
    · rintro ⟨x, hx, hxs, hxv⟩
      have hxne : x ≠ i1 := by
        intro he
        rw [he, getD_set_self _ _ _ _ hsetlen] at hxs
        exact Option.noConfusion hxs
      rw [getD_set_ne _ _ _ _ _ (fun he => hxne he.symm)] at hxs
      by_cases hmem : dCyc cap i0 x ∈ A2.tail
      · obtain ⟨k, hk1, r, hr, hre, hks, hvv⟩ := hocc1 x hx hmem
        rw [hk1] at hxs
        have hkk : k = k2 := Option.some_inj.mp hxs
        subst hkk
        have hgrc : A2.getD r 0 < cap := hA2lt _ (getD_mem A2 r (by omega))
        refine ⟨addCyc cap i0 (A2.getD r 0),
          addCyc_lt cap i0 _ hi0 (by omega), hks, ?_⟩
        rw [← hvv]
        exact hxv
      · refine ⟨x, hx, ?_, ?_⟩
        · rw [← hxcoord x hx, ← HuntS _ (dCyc_lt cap i0 x hi0 hx) hmem,
            hxcoord x hx]
          exact hxs
        · rw [← hxcoord x hx, ← HuntV _ (dCyc_lt cap i0 x hi0 hx) hmem,
            hxcoord x hx]
          exact hxv
    · rintro ⟨x, hx, hxs, hxv⟩
      have hs0 : dCyc cap i0 x ≠ 0 := by
        intro h0
        have hxi0 : x = i0 := by
          rw [← hxcoord x hx, h0, addCyc_zero cap i0 hi0]
        rw [hxi0, hkey] at hxs
        exact hk2 (Option.some_inj.mp hxs).symm
      by_cases hmem : dCyc cap i0 x ∈ A2
      · obtain ⟨r, hrl, hre⟩ := mem_getD A2 _ hmem
        have hrlen : r + 1 < A2.length := by
          by_contra hc
          have hr1 : r = A2.length - 1 := by omega
          have hz := zero_last_of_anti A2 hI2.pw hI2.mem0
          rw [← hr1] at hz
          rw [hz] at hre
          exact hs0 hre.symm
        have hr1c : A2.getD (r + 1) 0 < cap :=
          hA2lt _ (getD_mem A2 (r + 1) hrlen)
        have hlt0 : A2.getD (r + 1) 0 < A2.getD 0 0 :=
          getD_anti_mono A2 hI2.pw 0 (r + 1) (by omega) hrlen
        refine ⟨addCyc cap i0 (A2.getD (r + 1) 0),
          addCyc_lt cap i0 _ hi0 (by omega), ?_, ?_⟩
        · rw [getD_set_ne _ _ _ _ _ (fun he => by
            have h00 : addCyc cap i0 (A2.getD 0 0) =
                addCyc cap i0 (A2.getD (r + 1) 0) := by
              rw [← hieq2, he]
            have := addCyc_inj cap i0 _ _ hi0 hclt hr1c h00
            omega)]
          rw [HmovS r hrlen, hre, hxcoord x hx]
          exact hxs
        · rw [HmovV r hrlen, hre, hxcoord x hx]
          exact hxv
      · have hnt : dCyc cap i0 x ∉ A2.tail := fun h =>
          hmem (List.mem_of_mem_tail h)
        have hxne : x ≠ i1 := by
          intro he
          apply hmem
          rw [he, hi1coord]
          exact getD_zero_mem A2 hI2.ne
        refine ⟨x, hx, ?_, ?_⟩
        · rw [getD_set_ne _ _ _ _ _ (fun he => hxne he.symm),
            ← hxcoord x hx, HuntS _ (dCyc_lt cap i0 x hi0 hx) hnt,
            hxcoord x hx]
          exact hxs
        · rw [← hxcoord x hx, HuntV _ (dCyc_lt cap i0 x hi0 hx) hnt,
            hxcoord x hx]
          exact hxv
  · -- the final state is well-formed
    unfold WFNode
    rw [hps, hpv, hpe]
    refine ⟨hcap, by rw [List.length_set]; exact hlen1s, hlen1v, hlen1e,
      ⟨i1, hi1c, by rw [getD_set_self _ _ _ _ hsetlen]⟩, ?_, ?_⟩
    · -- distinct keys
      intro x hx y hy k hkx hky
      have hxne : x ≠ i1 := by
        intro he
        rw [he, getD_set_self _ _ _ _ hsetlen] at hkx
        exact Option.noConfusion hkx
      have hyne : y ≠ i1 := by
        intro he
        rw [he, getD_set_self _ _ _ _ hsetlen] at hky
        exact Option.noConfusion hky
      rw [getD_set_ne _ _ _ _ _ (fun he => hxne he.symm)] at hkx
      rw [getD_set_ne _ _ _ _ _ (fun he => hyne he.symm)] at hky
      by_cases hmx : dCyc cap i0 x ∈ A2.tail <;>
        by_cases hmy : dCyc cap i0 y ∈ A2.tail
      · obtain ⟨kx, hk1x, r, hrx, hrex, hksx, _⟩ := hocc1 x hx hmx
        obtain ⟨ky, hk1y, r2, hry, hrey, hksy, _⟩ := hocc1 y hy hmy
        rw [hk1x] at hkx
        rw [hk1y] at hky
        rw [Option.some_inj.mp hkx] at hksx
        rw [Option.some_inj.mp hky] at hksy
        have hgrc : A2.getD r 0 < cap := hA2lt _ (getD_mem A2 r (by omega))
        have hgrc2 : A2.getD r2 0 < cap :=
          hA2lt _ (getD_mem A2 r2 (by omega))
        have heq := hdis _ (addCyc_lt cap i0 _ hi0 (by omega)) _
          (addCyc_lt cap i0 _ hi0 (by omega)) k hksx hksy
        have heq2 : A2.getD r 0 = A2.getD r2 0 :=
          addCyc_inj cap i0 _ _ hi0 hgrc hgrc2 heq
        have hrr : r = r2 := by
          by_contra hne
          rcases Nat.lt_or_ge r r2 with h | h
          · have := getD_anti_mono A2 hI2.pw r r2 h (by omega)
            omega
          · have := getD_anti_mono A2 hI2.pw r2 r (by omega) (by omega)
            omega
        subst hrr
        rw [← hxcoord x hx, ← hxcoord y hy, ← hrex, ← hrey]
      · obtain ⟨kx, hk1x, r, hrx, hrex, hksx, _⟩ := hocc1 x hx hmx
        rw [hk1x] at hkx
        rw [Option.some_inj.mp hkx] at hksx
        have hky2 : n.slots.getD y none = some k := by
          rw [← hxcoord y hy, ← HuntS _ (dCyc_lt cap i0 y hi0 hy) hmy,
            hxcoord y hy]
          exact hky
        have hgrc : A2.getD r 0 < cap := hA2lt _ (getD_mem A2 r (by omega))
        have heq := hdis _ (addCyc_lt cap i0 _ hi0 (by omega)) y hy k
          hksx hky2
        have hyc : dCyc cap i0 y = A2.getD r 0 := by
          rw [← heq, dCyc_addCyc_cancel cap i0 _ hi0 hgrc]
        rcases head_or_tail A2 (A2.getD r 0) (getD_mem A2 r (by omega))
          with hh | ht
        · exact absurd (by
            rw [← hxcoord y hy, hyc, hh, ← hieq2] : y = i1) hyne
        · exact absurd (hyc ▸ ht) hmy
      · obtain ⟨ky, hk1y, r, hry, hrey, hksy, _⟩ := hocc1 y hy hmy
        rw [hk1y] at hky
        rw [Option.some_inj.mp hky] at hksy
        have hkx2 : n.slots.getD x none = some k := by
          rw [← hxcoord x hx, ← HuntS _ (dCyc_lt cap i0 x hi0 hx) hmx,
            hxcoord x hx]
          exact hkx
        have hgrc : A2.getD r 0 < cap := hA2lt _ (getD_mem A2 r (by omega))
        have heq := hdis _ (addCyc_lt cap i0 _ hi0 (by omega)) x hx k
          hksy hkx2
        have hxc2 : dCyc cap i0 x = A2.getD r 0 := by
          rw [← heq, dCyc_addCyc_cancel cap i0 _ hi0 hgrc]
        rcases head_or_tail A2 (A2.getD r 0) (getD_mem A2 r (by omega))
          with hh | ht
        · exact absurd (by
            rw [← hxcoord x hx, hxc2, hh, ← hieq2] : x = i1) hxne
        · exact absurd (hxc2 ▸ ht) hmx
      · have hkx2 : n.slots.getD x none = some k := by
          rw [← hxcoord x hx, ← HuntS _ (dCyc_lt cap i0 x hi0 hx) hmx,
            hxcoord x hx]
          exact hkx
        have hky2 : n.slots.getD y none = some k := by
          rw [← hxcoord y hy, ← HuntS _ (dCyc_lt cap i0 y hi0 hy) hmy,
            hxcoord y hy]
          exact hky
        exact hdis x hx y hy k hkx2 hky2
    · -- probe invariant
      intro q hq k hk x hx hin
      have hqne : q ≠ i1 := by
        intro he
        rw [he, getD_set_self _ _ _ _ hsetlen] at hk
        exact Option.noConfusion hk
      rw [getD_set_ne _ _ _ _ _ (fun he => hqne he.symm)] at hk
      have hhm : hashKey k % cap < cap := Nat.mod_lt _ hcap
      have hec : dCyc cap i0 (hashKey k % cap) < cap :=
        dCyc_lt cap i0 _ hi0 hhm
      have hfin : x ≠ i1 → n1.slots.getD x none ≠ none →
          (n1.slots.set i1 none).getD x none ≠ none := by
        intro h1 h2
        rw [getD_set_ne _ _ _ _ _ (fun he => h1 he.symm)]
        exact h2
      have hinc : dCyc cap (dCyc cap i0 (hashKey k % cap))
          (dCyc cap i0 x) <
          dCyc cap (dCyc cap i0 (hashKey k % cap)) (dCyc cap i0 q) := by
        have h1 := dCyc_coords cap i0 (hashKey k % cap) x hi0 hhm hx
        have h2 := dCyc_coords cap i0 (hashKey k % cap) q hi0 hhm hq
        unfold inCyc at hin
        omega
      by_cases hqm : dCyc cap i0 q ∈ A2.tail
      · -- the key sits in a back-shifted slot
        obtain ⟨kq, hk1q, r, hrq, hreq, hksq, _⟩ := hocc1 q hq hqm
        rw [hk1q] at hk
        rw [Option.some_inj.mp hk] at hksq
        have hgrc : A2.getD r 0 < cap := hA2lt _ (getD_mem A2 r (by omega))
        have hab : A2.getD (r + 1) 0 < A2.getD r 0 :=
          getD_anti_mono A2 hI2.pw r (r + 1) (by omega) hrq
        have hbc : A2.getD r 0 ≤ A2.getD 0 0 := by
          rcases Nat.eq_zero_or_pos r with h0 | hpos
          · rw [h0]
          · exact Nat.le_of_lt (getD_anti_mono A2 hI2.pw 0 r hpos (by omega))
        have hble : A2.getD r 0 ≤ t2 := hI2.le_t _ (getD_mem A2 r (by omega))
        have hpr := Hpred r hrq k hksq
        have hprb : ∀ y, y < cap →
            inCyc cap (hashKey k % cap) (addCyc cap i0 (A2.getD r 0)) y →
            n.slots.getD y none ≠ none :=
          hprobe _ (addCyc_lt cap i0 _ hi0 (by omega)) k hksq
        have hIe : ¬(A2.getD r 0 < dCyc cap i0 (hashKey k % cap) ∧
            dCyc cap i0 (hashKey k % cap) ≤ A2.getD 0 0) := by
          rintro ⟨h1, h2⟩
          refine hprb _ (addCyc_lt cap i0 _ hi0 (by omega)) ?_ Hemp
          unfold inCyc
          rw [dCyc_coords cap i0 _ (addCyc cap i0 (t2 + 1)) hi0 hhm
              (addCyc_lt cap i0 _ hi0 (by omega)),
            dCyc_coords cap i0 _ (addCyc cap i0 (A2.getD r 0)) hi0 hhm
              (addCyc_lt cap i0 _ hi0 (by omega)),
            dCyc_addCyc_cancel cap i0 (t2 + 1) hi0 (by omega),
            dCyc_addCyc_cancel cap i0 (A2.getD r 0) hi0 (by omega)]
          exact cyc_lemA cap _ (A2.getD r 0) (A2.getD 0 0) t2 hec hble hcle
            (by omega) h1 h2
        have hea_eb : dCyc cap (dCyc cap i0 (hashKey k % cap))
            (A2.getD (r + 1) 0) ≤
            dCyc cap (dCyc cap i0 (hashKey k % cap)) (A2.getD r 0) :=
          cyc_lemB cap _ _ _ hec hab (by omega) hpr
        have hea_ec : dCyc cap (dCyc cap i0 (hashKey k % cap))
            (A2.getD (r + 1) 0) ≤
            dCyc cap (dCyc cap i0 (hashKey k % cap)) (A2.getD 0 0) :=
          cyc_lemC cap _ _ _ _ hec hab hbc hclt hpr hIe
        refine hfin ?_ ?_
        · intro hxe
          have hxc : dCyc cap i0 x = A2.getD 0 0 := by
            rw [hxe, hi1coord]
          rw [hxc, ← hreq] at hinc
          omega
        · by_cases hmx : dCyc cap i0 x ∈ A2.tail
          · exact hoccm x hx hmx
          · rw [← hxcoord x hx, HuntS _ (dCyc_lt cap i0 x hi0 hx) hmx,
              hxcoord x hx]
            refine hprb x hx ?_
            unfold inCyc
            rw [dCyc_coords cap i0 _ x hi0 hhm hx,
              dCyc_coords cap i0 _ (addCyc cap i0 (A2.getD r 0)) hi0 hhm
                (addCyc_lt cap i0 _ hi0 (by omega)),
              dCyc_addCyc_cancel cap i0 (A2.getD r 0) hi0 (by omega)]
            rw [← hreq] at hinc
            omega
      · -- the key sits in an untouched slot
        have hqnc : dCyc cap i0 q ≠ A2.getD 0 0 := hxi1 q hq hqne
        have hqnA : dCyc cap i0 q ∉ A2 := by
          intro h
          rcases head_or_tail A2 _ h with hh | ht
          · exact hqnc hh
          · exact hqm ht
        have hkq2 : n.slots.getD q none = some k := by
          rw [← hxcoord q hq, ← HuntS _ (dCyc_lt cap i0 q hi0 hq) hqm,
            hxcoord q hq]
          exact hk
        have hq0 : 0 < dCyc cap i0 q := by
          rcases Nat.eq_zero_or_pos (dCyc cap i0 q) with h0 | hp
          · exact absurd (by rw [h0]; exact hI2.mem0 : dCyc cap i0 q ∈ A2)
              hqnA
          · exact hp
        have hprq : ∀ y, y < cap → inCyc cap (hashKey k % cap) q y →
            n.slots.getD y none ≠ none := hprobe q hq k hkq2
        by_cases hq2 : dCyc cap i0 q ≤ t2
        · obtain ⟨hle, hall⟩ := Hpass _ hq0 hq2 hqnA k
            (by rw [hxcoord q hq]; exact hkq2)
          refine hfin ?_ ?_
          · intro hxe
            have hxc : dCyc cap i0 x = A2.getD 0 0 := by
              rw [hxe, hi1coord]
            have hcA := hall _ (getD_zero_mem A2 hI2.ne)
            rw [hxc] at hinc
            exact cyc_lemD cap _ (A2.getD 0 0) (dCyc cap i0 q) hec hclt
              (dCyc_lt cap i0 q hi0 hq) hle hcA hinc
          · by_cases hmx : dCyc cap i0 x ∈ A2.tail
            · exact hoccm x hx hmx
            · rw [← hxcoord x hx, HuntS _ (dCyc_lt cap i0 x hi0 hx) hmx,
                hxcoord x hx]
              exact hprq x hx hin
        · have hq2c : dCyc cap i0 q < cap := dCyc_lt cap i0 q hi0 hq
          have hne21 : t2 + 1 ≠ dCyc cap i0 q := by
            intro he
            have hqe : q = addCyc cap i0 (t2 + 1) := by
              rw [← hxcoord q hq, ← he]
            rw [hqe, Hemp] at hkq2
            exact Option.noConfusion hkq2
          refine hfin ?_ ?_
          · intro hxe
            have hxc : dCyc cap i0 x = A2.getD 0 0 := by
              rw [hxe, hi1coord]
            refine hprq _ (addCyc_lt cap i0 _ hi0 (by omega)) ?_ Hemp
            unfold inCyc
            rw [dCyc_coords cap i0 _ (addCyc cap i0 (t2 + 1)) hi0 hhm
                (addCyc_lt cap i0 _ hi0 (by omega)),
              dCyc_coords cap i0 _ q hi0 hhm hq,
              dCyc_addCyc_cancel cap i0 (t2 + 1) hi0 (by omega)]
            rw [hxc] at hinc
            exact cyc_lemE cap _ (A2.getD 0 0) (dCyc cap i0 q) t2 hec hcle
              (by omega) hq2c hne21 (by omega) hinc
          · by_cases hmx : dCyc cap i0 x ∈ A2.tail
            · exact hoccm x hx hmx
            · rw [← hxcoord x hx, HuntS _ (dCyc_lt cap i0 x hi0 hx) hmx,
                hxcoord x hx]
              exact hprq x hx hin

end SCertifiedHashMapNode

end Spec2Proof

namespace Spec2Proof

namespace SCertifiedHashMapNode

variable {K V : Type} [DecidableEq K] [Inhabited V]

theorem findLoop_sound (n : SCertifiedHashMapNode K V) (cap : Nat) (key : K) :
    ∀ fuel i j k, i < cap → findLoop fuel n key i cap = some (j, k) →
      j < cap ∧ n.slots.getD j none = some k ∧ k = key := by
  intro fuel
  induction fuel with
  | zero =>
    intro i j k _ h
    exact Option.noConfusion h
  | succ fuel ih =>
    intro i j k hi h
    unfold findLoop at h
    rcases hs : n.slots.getD i none with _ | k1
    · rw [hs] at h
      exact Option.noConfusion h
    · rw [hs] at h
      dsimp only at h
      by_cases he : k1 = key
      · rw [if_pos he] at h
        simp only [Option.some_inj, Prod.mk.injEq] at h
        obtain ⟨h1, h2⟩ := h
        refine ⟨by omega, ?_, ?_⟩
        · rw [← h1, ← h2]
          exact hs
        · rw [← h2]
          exact he
      · rw [if_neg he] at h
        exact ih ((i + 1) % cap) j k (Nat.mod_lt _ (by omega)) h

end SCertifiedHashMapNode

/-- A capacity-5 node with identity hashing holding 9 (home 4, wrapped to
slot 0), 2 (home slot 2) and 4 (home slot 4). -/
def c4Node : SCertifiedHashMapNode Nat Nat :=
  { len := 3
    slots := [some 9, none, some 2, none, some 4]
    vals := [90, 0, 20, 0, 40]
    entryH := List.replicate 5 EMPTY_SHA256
    nodeH := List.replicate 5 EMPTY_SHA256 }

/-- A decidable sufficient condition for `WFNode`, used to check concrete
nodes. -/
theorem WFNode_of_checks {K V : Type} [DecidableEq K] [Inhabited K]
    [Inhabited V] (hashKey : K → Nat) (n : SCertifiedHashMapNode K V)
    (cap : Nat) (h1 : 0 < cap) (h2 : n.slots.length = cap)
    (h3 : n.vals.length = cap) (h4 : n.entryH.length = cap)
    (h5 : ∃ e, e < cap ∧ n.slots.getD e none = none)
    (hd : ∀ i, i < cap → ∀ j, j < cap → i ≠ j →
      n.slots.getD i none = none ∨
      n.slots.getD i none ≠ n.slots.getD j none)
    (hp : ∀ q, q < cap → ∀ x, x < cap →
      n.slots.getD q none = none ∨
      (inCyc cap (hashKey ((n.slots.getD q none).getD default) % cap) q x →
        n.slots.getD x none ≠ none)) :
    SCertifiedHashMapNode.WFNode hashKey n cap := by
  refine ⟨h1, h2, h3, h4, h5, ?_, ?_⟩
  · intro i hi j hj k hki hkj
    by_contra hne
    rcases hd i hi j hj hne with hc | hc
    · rw [hki] at hc
      exact Option.noConfusion hc
    · rw [hki, hkj] at hc
      exact hc rfl
  · intro q hq k hk x hx hin
    rcases hp q hq x hx with hc | hc
    · rw [hk] at hc
      exact Option.noConfusion hc
    · refine hc ?_
      rw [hk]
      exact hin

/-- C4: remove preserves search.  On any well-formed node (correct lengths,
a free slot, no duplicate keys, unbroken probe paths) that holds `key` in
slot `q`, after `remove(key)` — which back-shifts with the wrap-aware
XOR predicate — looking up `key` yields nothing, and looking up any other
key yields exactly what it yielded before the removal. -/
theorem c4_remove_preserves_search {K V : Type} [DecidableEq K] [Inhabited V]
    (hashKey : K → Nat) (n : SCertifiedHashMapNode K V) (cap : Nat)
    (key : K) (q : Nat) (hq : q < cap)
    (hkey : n.slots.getD q none = some key)
    (hwf : SCertifiedHashMapNode.WFNode hashKey n cap) :
    SCertifiedHashMapNode.find hashKey
      (SCertifiedHashMapNode.remove hashKey n key cap).2 key cap = none ∧
    ∀ k2 : K, k2 ≠ key →
      SCertifiedHashMapNode.find hashKey
        (SCertifiedHashMapNode.remove hashKey n key cap).2 k2 cap =
      SCertifiedHashMapNode.find hashKey n k2 cap := by
  have hcap : 0 < cap := hwf.1
  have hfi : SCertifiedHashMapNode.findInnerIdx hashKey n key cap =
      some (q, key) :=
    SCertifiedHashMapNode.findInnerIdx_complete hashKey n cap key q hq hkey hwf
  have hrem : (SCertifiedHashMapNode.remove hashKey n key cap).2 =
      (SCertifiedHashMapNode.removeByIdx hashKey n q cap).2 := by
    unfold SCertifiedHashMapNode.remove
    rw [hfi]
  obtain ⟨hgone, hpres, hwf2⟩ :=
    SCertifiedHashMapNode.removeByIdx_spec hashKey n cap q key hq hkey hwf
  rw [hrem]
  constructor
  · unfold SCertifiedHashMapNode.find
    have hnone : SCertifiedHashMapNode.findInnerIdx hashKey
        (SCertifiedHashMapNode.removeByIdx hashKey n q cap).2 key cap =
        none := by
      unfold SCertifiedHashMapNode.findInnerIdx
      exact SCertifiedHashMapNode.findLoop_absent _ cap key hgone cap _
        (Nat.mod_lt _ hcap)
    rw [hnone]
  · intro k2 hk2
    rcases hfind : SCertifiedHashMapNode.find hashKey n k2 cap with _ | v
    · unfold SCertifiedHashMapNode.find at hfind ⊢
      rcases hfi2 : SCertifiedHashMapNode.findInnerIdx hashKey n k2 cap
        with _ | p
      · have habs2 : ∀ x, x < cap →
            (SCertifiedHashMapNode.removeByIdx hashKey n q cap).2.slots.getD
              x none ≠ some k2 := by
          intro x hx hcon
          obtain ⟨y, hy, hky, _⟩ := (hpres k2 _ hk2).mp ⟨x, hx, hcon, rfl⟩
          have hc := SCertifiedHashMapNode.findInnerIdx_complete hashKey n
            cap k2 y hy hky hwf
          rw [hc] at hfi2
          exact Option.noConfusion hfi2
        have hnone2 : SCertifiedHashMapNode.findInnerIdx hashKey
            (SCertifiedHashMapNode.removeByIdx hashKey n q cap).2 k2 cap =
            none := by
          unfold SCertifiedHashMapNode.findInnerIdx
          exact SCertifiedHashMapNode.findLoop_absent _ cap k2 habs2 cap _
            (Nat.mod_lt _ hcap)
        rw [hnone2]
      · rw [hfi2] at hfind
        exact Option.noConfusion hfind
    · unfold SCertifiedHashMapNode.find at hfind
      rcases hfi2 : SCertifiedHashMapNode.findInnerIdx hashKey n k2 cap
        with _ | p
      · rw [hfi2] at hfind
        exact Option.noConfusion hfind
      · rw [hfi2] at hfind
        dsimp only at hfind
        rcases p with ⟨y, k3⟩
        obtain ⟨hy, hslot, hk3⟩ :=
          SCertifiedHashMapNode.findLoop_sound n cap k2 cap _ y k3
            (Nat.mod_lt _ hcap) hfi2
        rw [hk3] at hslot
        have hv : n.vals.getD y default = v := Option.some_inj.mp hfind
        obtain ⟨x2, hx2, hslot2, hv2⟩ :=
          (hpres k2 v hk2).mpr ⟨y, hy, hslot, hv⟩
        have hc := SCertifiedHashMapNode.findInnerIdx_complete hashKey
          (SCertifiedHashMapNode.removeByIdx hashKey n q cap).2 cap k2 x2
          hx2 hslot2 hwf2
        unfold SCertifiedHashMapNode.find
        rw [hc]
        dsimp only
        unfold SCertifiedHashMapNode.readValAt
        rw [hv2]

/-- C4 witness: removing 4 from `c4Node` leaves lookups of 4 empty and
lookups of the wrapped key 9 unchanged. -/
theorem c4_remove_preserves_search_witness :
    SCertifiedHashMapNode.find (fun k => k)
      (SCertifiedHashMapNode.remove (fun k => k) c4Node 4 5).2 4 5 = none ∧
    SCertifiedHashMapNode.find (fun k => k)
      (SCertifiedHashMapNode.remove (fun k => k) c4Node 4 5).2 9 5 =
    SCertifiedHashMapNode.find (fun k => k) c4Node 9 5 :=
  ⟨(c4_remove_preserves_search (fun k => k) c4Node 5 4 4 (by decide)
      (by decide)
      (WFNode_of_checks (fun k => k) c4Node 5 (by decide) (by decide)
        (by decide) (by decide) ⟨1, by decide, by decide⟩ (by decide)
        (by decide))).1,
   (c4_remove_preserves_search (fun k => k) c4Node 5 4 4 (by decide)
      (by decide)
      (WFNode_of_checks (fun k => k) c4Node 5 (by decide) (by decide)
        (by decide) (by decide) ⟨1, by decide, by decide⟩ (by decide)
        (by decide))).2 9 (by decide)⟩

end Spec2Proof

namespace Spec2Proof

/-- Insert `k ↦ 10k` with `u64` little-endian byte encodings and the
identity key hash (the external ZwoHasher modelled from the spec). -/
def c3ins (n : SCertifiedHashMapNode Nat Nat) (k cap : Nat) :
    SCertifiedHashMapNode Nat Nat :=
  (SCertifiedHashMapNode.insert le8 le8 (fun x => x) n k (k * 10) cap).2

/-- Capacity-3 node holding only key 1 in its home slot 1. -/
def c3one : SCertifiedHashMapNode Nat Nat :=
  c3ins (SCertifiedHashMapNode.mk0 3) 1 3

/-- The same node after also inserting key 2 (home slot 2). -/
def c3two : SCertifiedHashMapNode Nat Nat := c3ins c3one 2 3

/-- `c3two` after `remove(2)`: no entry shifts and slot 2 is cleared, so
the slots coincide with `c3one`'s again. -/
def c3rem : SCertifiedHashMapNode Nat Nat :=
  (SCertifiedHashMapNode.remove (fun x => x) c3two 2 3).2

set_option maxRecDepth 200000 in
set_option maxHeartbeats 4000000 in
/-- C3: deletion rehash versus clean rebuild, the failing input.  After
`remove(2)` the node holds exactly the entries of `c3one` in the same
slots, yet its root hash differs from `c3one`'s: `remove_by_idx` writes
the ghost hash `sha256_node(EMPTY_SHA256, lc, rc)` into the cleared slot
instead of returning it to the zero digest that untouched empty slots
carry, and the ghost propagates into the root (the source flags this
rehash as `FIXME: PROBABLY INVALID`). -/
theorem c3_remove_rehash_ghost_root :
    c3rem.slots = c3one.slots ∧ c3rem.vals.getD 1 0 = c3one.vals.getD 1 0 ∧
    SCertifiedHashMapNode.readRootHash c3rem ≠
      SCertifiedHashMapNode.readRootHash c3one := by
  refine ⟨by decide, by decide, by decide⟩

end Spec2Proof
